import Mathlib

/-!
# iotbx/pdb/input.h : line diagnostics, atom-label extraction, index ranges

Shallow embedding of `iotbx::pdb::line_info`, `iotbx::pdb::input_atom_labels`,
`iotbx::pdb::range_loop` and the comparison object and `is_record_type` of
`iotbx::pdb::columns_73_76_evaluator`. The header only declares the constructor of
`columns_73_76_evaluator` and `input::construct_hierarchy`; what is needed of them is
modelled from the written specification, in definitions marked as such.

Modelling conventions
* a `char` is a `Char`; a `std::string` and every `char` buffer is a `List Char`;
* the pair `(data, size)` of `line_info` denotes the byte sequence `data[0..size)`,
  so the model keeps the list `data` and `size` is its length;
* a `char*` into a buffer is the buffer together with an offset, a write
  `p[j] = c` is `List.set` at `p + j`, a read `p[j]` is `List.getD` at `p + j`;
* `unsigned` counters are `Nat`: every increment in the embedded loops is guarded
  by a `<` (or `!=`) test against another `unsigned`, every decrement by a `>` test,
  so no counter wraps;
* in `range_loop`, where `static_cast<unsigned>` and the subtraction `end - begin`
  can wrap, both are taken modulo `2^32`;
* members a C++ constructor leaves uninitialised are taken from an argument
  `uninit` that stands for the indeterminate prior contents.
-/

namespace iotbx.pdb

/-- Bytes `p[0..n)` as a `std::string`, i.e. `std::string(p, n)` for the pointer
`p = mem + ptr`. -/
def std_string (mem : List Char) (ptr n : Nat) : List Char :=
  (mem.drop ptr).take n

/-! ## line_info -/

/-- Facilitates fast processing and comprehensive error messages. -/
structure line_info where
  source_info : Option (List Char)
  line_number : Nat
  data : List Char
  error_source_info_ : List Char
  error_line_number_ : Nat
  error_line_ : List Char
  error_column_ : Nat
  error_message_ : List Char
deriving DecidableEq, Repr

namespace line_info

/-- The public member `size`: number of bytes of the line. -/
abbrev size (self : line_info) : Nat := self.data.length

/-- Constructor `line_info(const char* source_info_)` (a constructor cannot share
the name of its type here, hence `ctor`): sets `source_info`,
`line_number = 0`, `error_column_ = 0`; the three `std::string` members are
default-constructed (empty); `data`, `size` and `error_line_number_` keep their
indeterminate contents. -/
def ctor (source_info_ : Option (List Char)) (uninit : line_info) : line_info :=
  { source_info := source_info_
    line_number := 0
    data := uninit.data
    error_source_info_ := []
    error_line_number_ := uninit.error_line_number_
    error_line_ := []
    error_column_ := 0
    error_message_ := [] }

/-- Member `set_error(error_column, error_message)`. -/
def set_error (self : line_info) (error_column : Nat) (error_message : List Char) :
    line_info :=
  if self.error_column_ ≠ 0 then self
  else
    { self with
      error_source_info_ := (match self.source_info with
        | some s => s
        | none => [])
      error_line_number_ := self.line_number
      error_line_ := self.data
      error_column_ := error_column
      error_message_ := error_message }

/-- Member `error_occured()`. -/
def error_occured (self : line_info) : Bool :=
  self.error_column_ != 0

/-- Loop of `is_blank_line`, entered with counter `i`. -/
def is_blank_line.loop (self : line_info) (i : Nat) : Bool :=
  if h : i < self.size then
    if self.data[i] ≠ ' ' then false
    else is_blank_line.loop self (i + 1)
  else true
termination_by self.size - i

/-- Member `is_blank_line()`. -/
def is_blank_line (self : line_info) : Bool :=
  is_blank_line.loop self 0

/-- Loop of `strip_data`: entered with the current `sz`, returns `sz` at loop
exit. Each iteration tests `sz > start_at_column`, decrements `sz`, and on a
non-space byte restores `sz` and leaves. -/
def strip_data.loop (self : line_info) (start_at_column : Nat) :
    (sz : Nat) → sz ≤ self.size → Nat
  | 0, _ => 0
  | sz + 1, h =>
    if sz + 1 > start_at_column then
      if self.data[sz] ≠ ' ' then sz + 1
      else strip_data.loop self start_at_column sz (Nat.le_of_succ_le h)
    else sz + 1

/-- Member `strip_data(start_at_column)`. -/
def strip_data (self : line_info) (start_at_column : Nat) : List Char :=
  let sz := strip_data.loop self start_at_column self.size (Nat.le_refl _)
  if sz ≤ start_at_column then []
  else (self.data.take sz).drop start_at_column

end line_info

/-! ## input_atom_labels -/

/-- Efficient processing of input atom labels: the `compacted` byte block. -/
structure input_atom_labels where
  compacted : List Char
deriving DecidableEq, Repr

namespace input_atom_labels

/-- Size of the `compacted` array. -/
def compacted_size : Nat := 4+1+3+2+4+1+4

/-- Pointer `compacted`. -/
def name_begin : Nat := 0
/-- Pointer `compacted+4`. -/
def altloc_begin : Nat := 4
/-- Pointer `compacted+5`. -/
def resname_begin : Nat := 5
/-- Pointer `compacted+4`. -/
def confid_begin : Nat := 4
/-- Pointer `compacted+8`. -/
def chain_begin : Nat := 8
/-- Pointer `compacted+10`. -/
def resseq_begin : Nat := 10
/-- Pointer `compacted+14`. -/
def icode_begin : Nat := 14
/-- Pointer `compacted+10`. -/
def resid_begin : Nat := 10
/-- Pointer `compacted+15`. -/
def segid_begin : Nat := 15

/-- Accessor `name()`. -/
def name (self : input_atom_labels) : List Char :=
  std_string self.compacted name_begin 4

/-- Accessor `altloc()`. -/
def altloc (self : input_atom_labels) : List Char :=
  std_string self.compacted altloc_begin 1

/-- Accessor `resname()`. -/
def resname (self : input_atom_labels) : List Char :=
  std_string self.compacted resname_begin 3

/-- Accessor `confid()`. -/
def confid (self : input_atom_labels) : List Char :=
  std_string self.compacted confid_begin 4

/-- Accessor `chain()`. -/
def chain (self : input_atom_labels) : List Char :=
  if self.compacted.getD (chain_begin + 0) default = ' ' then
    std_string self.compacted (chain_begin + 1) 1
  else std_string self.compacted chain_begin 2

/-- Accessor `resseq()`. -/
def resseq (self : input_atom_labels) : List Char :=
  std_string self.compacted resseq_begin 4

/-- Accessor `icode()`. -/
def icode (self : input_atom_labels) : List Char :=
  std_string self.compacted icode_begin 1

/-- Accessor `resid()`. -/
def resid (self : input_atom_labels) : List Char :=
  std_string self.compacted resid_begin 5

/-- Accessor `segid()`. -/
def segid (self : input_atom_labels) : List Char :=
  std_string self.compacted segid_begin 4

/-- Second loop of `extract`: `while (j < n) target[j++] = ' ';`. -/
def extract.pad (n target : Nat) (j : Nat) (mem : List Char) : List Char :=
  if j < n then extract.pad n target (j + 1) (mem.set (target + j) ' ')
  else mem
termination_by n - j

/-- First loop of `extract`, falling through to the second loop at exit. -/
def extract.copy (li : line_info) (n target : Nat) (i_begin j : Nat)
    (mem : List Char) : List Char :=
  if h : i_begin < li.size then
    if j = n then mem
    else extract.copy li n target (i_begin + 1) (j + 1)
      (mem.set (target + j) li.data[i_begin])
  else extract.pad n target j mem
termination_by li.size - i_begin

/-- Static member `extract(line_info, i_begin, n, target)`, where `target` points
at offset `target` of the buffer `mem`; returns the buffer after the call. -/
def extract (li : line_info) (i_begin n : Nat) (mem : List Char) (target : Nat) :
    List Char :=
  extract.copy li n target i_begin 0 mem

/-- Constructor `input_atom_labels(pdb::line_info& line_info)`, named `ctor`;
`uninit` is the
indeterminate content of `compacted` before the constructor body runs. -/
def ctor (uninit : input_atom_labels) (li : line_info) : input_atom_labels :=
  let m := uninit.compacted
  let m := extract li 12 4 m name_begin
  let m := extract li 16 1 m altloc_begin
  let m := extract li 17 3 m resname_begin
  let m := extract li 20 2 m chain_begin
  let m := extract li 22 4 m resseq_begin
  let m := extract li 26 1 m icode_begin
  let m := extract li 72 4 m segid_begin
  { compacted := m }

/-- Second loop of `are_equal`: `while (j < n) if (target[j++] != ' ') return false;`
followed by `return true`. -/
def are_equal.pad (n : Nat) (mem : List Char) (target : Nat) (j : Nat) : Bool :=
  if j < n then
    if mem.getD (target + j) default ≠ ' ' then false
    else are_equal.pad n mem target (j + 1)
  else true
termination_by n - j

/-- First loop of `are_equal`, falling through to the second loop at exit. -/
def are_equal.cmp (li : line_info) (n : Nat) (mem : List Char) (target : Nat)
    (i_begin j : Nat) : Bool :=
  if h : i_begin < li.size then
    if j = n then true
    else if mem.getD (target + j) default ≠ li.data[i_begin] then false
    else are_equal.cmp li n mem target (i_begin + 1) (j + 1)
  else are_equal.pad n mem target j
termination_by li.size - i_begin

/-- Static member `are_equal(line_info, i_begin, n, target)`, where `target`
points at offset `target` of the buffer `mem`. -/
def are_equal (li : line_info) (i_begin n : Nat) (mem : List Char) (target : Nat) :
    Bool :=
  are_equal.cmp li n mem target i_begin 0

end input_atom_labels

/-! ## columns_73_76_evaluator -/

/-- Detects old-style PDB files with the PDB access code in columns 73-76: the
result members `is_old_style` and `number_of_atom_and_hetatm_lines`. The member
`finding`, a message text, is left out. -/
structure columns_73_76_evaluator where
  is_old_style : Bool
  number_of_atom_and_hetatm_lines : Nat
deriving DecidableEq, Repr

namespace columns_73_76_evaluator

/-- The type `af::tiny<char, 4>`; the element `a[k]` is the field `ek`. -/
structure columns_73_76_t where
  e0 : Char
  e1 : Char
  e2 : Char
  e3 : Char
deriving DecidableEq, Repr

/-- Call operator of the comparison object `columns_73_76_t_lexical_less_than`.
Characters are compared by `<` on `Char`; whether `char` is signed or not only
changes which strict total order on characters that is. -/
def columns_73_76_t_lexical_less_than (a b : columns_73_76_t) : Bool :=
  if a.e0 < b.e0 then true
  else if a.e0 > b.e0 then false
  else if a.e1 < b.e1 then true
  else if a.e1 > b.e1 then false
  else if a.e2 < b.e2 then true
  else if a.e2 > b.e2 then false
  else if a.e3 < b.e3 then true
  else false

/-- The terminating NUL of a C string. -/
def nul : Char := Char.ofNat 0

/-- Loop of `is_record_type`, entered with counter `i`. Both arguments are C
strings: the byte read just past the last character is the terminating NUL. -/
def is_record_type.loop (name line_data : List Char) (i : Nat) : Bool :=
  if i < 6 then
    if line_data.getD i nul ≠ name.getD i nul then false
    else is_record_type.loop name line_data (i + 1)
  else true
termination_by 6 - i

/-- Static member `is_record_type(name, line_data)`. -/
def is_record_type (name line_data : List Char) : Bool :=
  is_record_type.loop name line_data 0

end columns_73_76_evaluator

/-! ## range_loop -/

/-- Number of values of the type `unsigned`. -/
def unsigned_range : Nat := 2 ^ 32

/-- Helper for looping over index ranges. The array the two protected pointers run
over is the list `indices`; the pointer `i` is its offset from the start of that
array, and `i_end` is the offset `indices.length`. The members `begin`, `end` and
`size` are `unsigned`; `end` is spelled `end_`. -/
structure range_loop where
  indices : List Nat
  i : Nat
  begin : Nat
  end_ : Nat
  size : Nat
deriving DecidableEq, Repr

namespace range_loop

/-- The protected pointer `i_end`. -/
abbrev i_end (self : range_loop) : Nat := self.indices.length

/-- Constructors `range_loop(indices, begin=0)` (from an `af::const_ref` or from a
`std::vector`): `i_end` and `i` delimit the whole of `indices`, `end` is set to the
argument `begin`; the members `begin` and `size` keep their indeterminate contents. -/
def ctor (indices : List Nat) (begin : Nat) (uninit : range_loop) : range_loop :=
  { indices := indices
    i := 0
    begin := uninit.begin
    end_ := begin
    size := uninit.size }

/-- Member `next()`: the returned flag and the state after the call. The element
`*i` is converted by `static_cast<unsigned>`, and `end - begin` is the subtraction
of `unsigned`, both modulo `2^32`. -/
def next (self : range_loop) : Bool × range_loop :=
  if self.i = self.i_end then (false, self)
  else
    let begin := self.end_
    let end_ := self.indices.getD self.i 0 % unsigned_range
    (true,
      { self with
        i := self.i + 1
        begin := begin
        end_ := end_
        size := (end_ + unsigned_range - begin) % unsigned_range })

/-- State after `k` successive calls of `next()`. -/
def nexts (self : range_loop) : Nat → range_loop
  | 0 => self
  | k + 1 => (next (nexts self k)).2

end range_loop

/-! ## Reference definitions following the written specification -/

/-- Blank-padded field of width `n` starting at 0-based offset `i_begin`: byte `j`
is `line[i_begin + j]` when that offset is inside the line and a space otherwise. -/
def padded_field (line : List Char) (i_begin n : Nat) : List Char :=
  (List.range n).map (fun j => line.getD (i_begin + j) ' ')

/-- Error state of a line: source, line number, line text, column and message of
the attached error. -/
def error_state (li : line_info) : List Char × Nat × List Char × Nat × List Char :=
  (li.error_source_info_, li.error_line_number_, li.error_line_, li.error_column_,
    li.error_message_)

/-- A finite sequence of `set_error` calls, each given by its column and message,
applied in order. -/
def set_errors (li : line_info) (calls : List (Nat × List Char)) : line_info :=
  calls.foldl (fun s c => s.set_error c.1 c.2) li

namespace columns_73_76_evaluator

/-- Modelled from the spec: test that the first six characters of a line match the
`ATOM` or `HETATM` keyword, position-exact and without trimming; part of the
constructor `columns_73_76_evaluator(lines, ...)`, whose body the header does not
contain. The comparison itself is `is_record_type` of the header. -/
def is_atom_or_hetatm (line : List Char) : Bool :=
  decide (6 ≤ line.length) &&
    (is_record_type "ATOM  ".toList line || is_record_type "HETATM".toList line)

/-- Modelled from the spec: the fixed 4-character trailing column window of a line,
columns 73-76, inspected by the missing constructor body. -/
def trailing_window (line : List Char) : columns_73_76_t :=
  { e0 := line.getD 72 ' ', e1 := line.getD 73 ' ', e2 := line.getD 74 ' ',
    e3 := line.getD 75 ' ' }

/-- Modelled from the spec: entry of the frequency table (`columns_73_76_dict_t`, a
map ordered by `columns_73_76_t_lexical_less_than`) for the value `v`: the number of
windows equivalent to `v` under the comparison object. The table is filled by the
missing constructor body. -/
def frequency (keys : List columns_73_76_t) (v : columns_73_76_t) : Nat :=
  keys.countP (fun k =>
    !columns_73_76_t_lexical_less_than k v && !columns_73_76_t_lexical_less_than v k)

/-- Modelled from the spec: the window value `v` repeats at or above the frequency
threshold, "at least 1000 occurrences for atom-type lines, at least 100 for all other
record types" by default: `v` occurs at least `thr_atom` times in the windows of the
atom records or at least `thr_other` times in the windows of the other records. Part
of the decision rule of the missing constructor body. -/
def is_frequent (atom_keys other_keys : List columns_73_76_t) (thr_atom thr_other : Nat)
    (v : columns_73_76_t) : Bool :=
  decide (thr_atom ≤ frequency atom_keys v) || decide (thr_other ≤ frequency other_keys v)

/-- Modelled from the spec: the constructor
`columns_73_76_evaluator(lines, is_frequent_threshold_atom_records,
is_frequent_threshold_other_records)`, of which the header has the declaration only.
Following section 4.2 of the specification: the `ATOM`/`HETATM` lines are counted and
their trailing windows tabulated; the file is judged old style when the window value
of an atom record repeats at or above the frequency threshold and a small number of
distinct values dominate rather than many distinct codes, which is read as: the
atom records whose window value reaches the threshold outnumber the other atom
records (the values reaching a threshold are few, each taking that many lines).
With no `ATOM`/`HETATM` line the verdict is not old style. -/
def ctor (lines : List (List Char))
    (is_frequent_threshold_atom_records is_frequent_threshold_other_records : Nat) :
    columns_73_76_evaluator :=
  let atom_keys := (lines.filter is_atom_or_hetatm).map trailing_window
  let other_keys := (lines.filter (fun l => !is_atom_or_hetatm l)).map trailing_window
  let frequent := is_frequent atom_keys other_keys is_frequent_threshold_atom_records
    is_frequent_threshold_other_records
  { number_of_atom_and_hetatm_lines := atom_keys.length
    is_old_style :=
      !atom_keys.isEmpty &&
      atom_keys.any frequent &&
      decide (atom_keys.length < 2 * atom_keys.countP frequent) }

end columns_73_76_evaluator

namespace input

/-- Modelled from the spec: the chain level of `input::construct_hierarchy`, of which
the header has the declaration only. Following section 4.5 of the specification:
within a model, atoms are grouped into chains by contiguous runs of identical chain
id, and a TER marker ends the chain it falls within. `atoms` are the labels of the
atoms of one model in file order, the first of them at position `first` of the atom
list; a TER marker at position `p` stands between the atoms `p - 1` and `p`. A chain
is given by its id and its atoms. -/
def construct_hierarchy.chains (ter_indices : List Nat) :
    Nat → List input_atom_labels → List (List Char × List input_atom_labels)
  | _, [] => []
  | first, a :: rest =>
    match construct_hierarchy.chains ter_indices (first + 1) rest with
    | [] => [(a.chain, [a])]
    | (id, members) :: cs =>
      if a.chain = id ∧ (first + 1) ∉ ter_indices then (id, a :: members) :: cs
      else (a.chain, [a]) :: (id, members) :: cs

end input

/-- One `set_error` call, together with the values the public members
`source_info`, `line_number` and `data` (with `size`) have when the call is made. -/
structure set_error_call where
  source_info : Option (List Char)
  line_number : Nat
  data : List Char
  error_column : Nat
  error_message : List Char
deriving DecidableEq, Repr

/-- Assignment of the public members before a call. -/
def assign_public (li : line_info) (c : set_error_call) : line_info :=
  { li with source_info := c.source_info, line_number := c.line_number, data := c.data }

/-- A finite sequence of `set_error` calls applied in order, the public members
being assigned before each call. -/
def run_calls (li : line_info) (calls : List set_error_call) : line_info :=
  calls.foldl (fun s c => (assign_public s c).set_error c.error_column c.error_message) li

/-- Error snapshot a call attaches when it takes effect: source name (empty for a
null pointer), line number, line text, column and message. -/
def snapshot (c : set_error_call) : List Char × Nat × List Char × Nat × List Char :=
  ((match c.source_info with
    | some s => s
    | none => []), c.line_number, c.data, c.error_column, c.error_message)

/-- Blank-padded bytes of the 1-based, inclusive column range `first..last` of a
line. -/
def columns (line : List Char) (first last : Nat) : List Char :=
  padded_field line (first - 1) (last + 1 - first)

/-! ## Concrete inputs used to instantiate the theorems -/

/-- An `ATOM` record of 80 columns, held by a `line_info` without error. -/
def sample_line : line_info :=
  { source_info := some "sample.pdb".toList
    line_number := 7
    data :=
      "ATOM      1  N   MET A   1      27.340  24.430   2.614  1.00  9.67      SEGA N  ".toList
    error_source_info_ := []
    error_line_number_ := 0
    error_line_ := []
    error_column_ := 0
    error_message_ := [] }

/-- A 19-byte block with arbitrary prior contents. -/
def sample_block : input_atom_labels :=
  { compacted := List.replicate 19 '?' }

/-- A label whose raw chain field is a blank followed by `X`. -/
def sample_label_X : input_atom_labels :=
  { compacted := " CA  GLY X  42 SEGA".toList }

/-- A label whose raw chain field is `AB`. -/
def sample_label_AB : input_atom_labels :=
  { compacted := " CA AGLYAB  42 SEGA".toList }

/-- A `range_loop` with arbitrary contents, standing for uninitialised storage. -/
def sample_range_loop : range_loop :=
  { indices := [], i := 7, begin := 11, end_ := 13, size := 17 }

/-- A label whose raw chain field is two blanks. -/
def sample_label_blank : input_atom_labels :=
  { compacted := " CA  GLY    42 SEGA".toList }

/-- Label of an atom with the given 4-byte name and 2-byte raw chain field. -/
def sample_atom (name chain_field : List Char) : input_atom_labels :=
  { compacted := name ++ " GLY".toList ++ chain_field ++ "  42 SEGA".toList }

/-- Character of the decimal digit `d`. -/
def digit (d : Nat) : Char := Char.ofNat (48 + d)

/-- An `ATOM` record of 76 columns: the first 72 columns of the sample record, then
the number `k` written with four decimal digits in columns 73-76. -/
def numbered_line (k : Nat) : List Char :=
  sample_line.data.take 72 ++
    [digit (k / 1000 % 10), digit (k / 100 % 10), digit (k / 10 % 10), digit (k % 10)]

/-- A 14-byte line: it ends after the first two of the four name columns. -/
def sample_line_14 : line_info :=
  { sample_line with data := "ATOM      1 AB".toList }

/-! ## Auxiliary facts on buffers -/

theorem padded_field_length (line : List Char) (i_begin n : Nat) :
    (padded_field line i_begin n).length = n := by
  simp [padded_field]

theorem padded_field_getElem? (line : List Char) (i_begin n j : Nat) :
    (padded_field line i_begin n)[j]? =
      if j < n then some (line.getD (i_begin + j) ' ') else none := by
  unfold padded_field
  by_cases hj : j < n
  · simp [hj, List.getElem?_range hj]
  · have : (List.range n).length ≤ j := by simpa using hj
    simp [hj, List.getElem?_eq_none this]

theorem std_string_getElem? (mem : List Char) (ptr n j : Nat) :
    (std_string mem ptr n)[j]? = if j < n then mem[ptr + j]? else none := by
  unfold std_string
  by_cases hj : j < n
  · simp [hj, List.getElem?_take_of_lt hj, List.getElem?_drop]
  · simp [hj, List.getElem?_take_eq_none (Nat.le_of_not_lt hj)]

namespace input_atom_labels

theorem extract_pad_length (n target j : Nat) (mem : List Char) :
    (extract.pad n target j mem).length = mem.length := by
  induction j, mem using extract.pad.induct n target with
  | case1 j mem hj ih =>
    rw [extract.pad, if_pos hj, ih, List.length_set]
  | case2 j mem hj =>
    rw [extract.pad, if_neg hj]

theorem extract_copy_length (li : line_info) (n target i_begin j : Nat) (mem : List Char) :
    (extract.copy li n target i_begin j mem).length = mem.length := by
  induction i_begin, j, mem using extract.copy.induct li n target with
  | case1 i_begin mem hi =>
    rw [extract.copy, dif_pos hi, if_pos rfl]
  | case2 i_begin j mem hi hj ih =>
    rw [extract.copy, dif_pos hi, if_neg hj, ih, List.length_set]
  | case3 i_begin j mem hi =>
    rw [extract.copy, dif_neg hi, extract_pad_length]

theorem extract_pad_getElem? (n target j : Nat) (mem : List Char) (k : Nat)
    (hmem : target + n ≤ mem.length) :
    (extract.pad n target j mem)[k]? =
      if target + j ≤ k ∧ k < target + n then some ' ' else mem[k]? := by
  induction j, mem using extract.pad.induct n target with
  | case1 j mem hj ih =>
    rw [extract.pad, if_pos hj, ih (by simpa using hmem)]
    by_cases hk : k = target + j
    · subst hk
      have h1 : ¬ (target + (j + 1) ≤ target + j ∧ target + j < target + n) := by omega
      have h2 : target + j ≤ target + j ∧ target + j < target + n := by omega
      rw [if_neg h1, if_pos h2, List.getElem?_set_self (by omega)]
    · rw [List.getElem?_set_ne (Ne.symm hk)]
      by_cases hr : target + j ≤ k ∧ k < target + n
      · rw [if_pos hr, if_pos (by omega)]
      · rw [if_neg hr, if_neg (by omega)]
  | case2 j mem hj =>
    rw [extract.pad, if_neg hj, if_neg (by omega)]

theorem extract_copy_getElem? (li : line_info) (n target i_begin j : Nat)
    (mem : List Char) (k : Nat) (hmem : target + n ≤ mem.length) (hjn : j ≤ n) :
    (extract.copy li n target i_begin j mem)[k]? =
      if target + j ≤ k ∧ k < target + n then
        some (li.data.getD (i_begin + (k - (target + j))) ' ')
      else mem[k]? := by
  induction i_begin, j, mem using extract.copy.induct li n target with
  | case1 i_begin mem hi =>
    rw [extract.copy, dif_pos hi, if_pos rfl, if_neg (by omega)]
  | case2 i_begin j mem hi hj ih =>
    rw [extract.copy, dif_pos hi, if_neg hj, ih (by simpa using hmem) (by omega)]
    by_cases hk : k = target + j
    · subst hk
      have h1 : ¬ (target + (j + 1) ≤ target + j ∧ target + j < target + n) := by omega
      have h2 : target + j ≤ target + j ∧ target + j < target + n := by omega
      rw [if_neg h1, if_pos h2, List.getElem?_set_self (by omega), Nat.sub_self,
        Nat.add_zero, List.getD_eq_getElem _ _ hi]
    · rw [List.getElem?_set_ne (Ne.symm hk)]
      by_cases hr : target + j ≤ k ∧ k < target + n
      · rw [if_pos hr, if_pos (by omega)]
        have : i_begin + 1 + (k - (target + (j + 1))) = i_begin + (k - (target + j)) := by
          omega
        rw [this]
      · rw [if_neg hr, if_neg (by omega)]
  | case3 i_begin j mem hi =>
    rw [extract.copy, dif_neg hi, extract_pad_getElem? n target j mem k hmem]
    by_cases hr : target + j ≤ k ∧ k < target + n
    · rw [if_pos hr, if_pos hr, List.getD_eq_default _ _ (by simp only [line_info.size] at hi; omega)]
    · rw [if_neg hr, if_neg hr]

end input_atom_labels

theorem getD_take_of_lt (l : List Char) (m i : Nat) (d : Char) (h : i < m) :
    (l.take m).getD i d = l.getD i d := by
  simp only [List.getD_eq_getElem?_getD, List.getElem?_take_of_lt h]

theorem getD_eq_of_take_eq (l l2 : List Char) (m i : Nat) (d : Char) (h : i < m)
    (heq : l2.take m = l.take m) : l2.getD i d = l.getD i d := by
  rw [← getD_take_of_lt l2 m i d h, heq, getD_take_of_lt l m i d h]

namespace input_atom_labels

theorem extract_length (li : line_info) (i_begin n : Nat) (mem : List Char) (target : Nat) :
    (extract li i_begin n mem target).length = mem.length := by
  unfold extract
  exact extract_copy_length li n target i_begin 0 mem

theorem extract_getElem? (li : line_info) (i_begin n : Nat) (mem : List Char)
    (target k : Nat) (hmem : target + n ≤ mem.length) :
    (extract li i_begin n mem target)[k]? =
      if target ≤ k ∧ k < target + n then
        some (li.data.getD (i_begin + (k - target)) ' ')
      else mem[k]? := by
  unfold extract
  rw [extract_copy_getElem? li n target i_begin 0 mem k hmem (Nat.zero_le n)]
  simp only [Nat.add_zero]

theorem extract_eq_append (li : line_info) (i_begin n : Nat) (mem : List Char)
    (target : Nat) (hmem : target + n ≤ mem.length) :
    extract li i_begin n mem target =
      mem.take target ++ (padded_field li.data i_begin n ++ mem.drop (target + n)) := by
  apply List.ext_getElem?
  intro k
  rw [extract_getElem? li i_begin n mem target k hmem]
  by_cases h1 : k < target
  · rw [if_neg (by omega), List.getElem?_append_left (by simp; omega),
      List.getElem?_take_of_lt h1]
  · have hlen : (mem.take target).length = target := by simp; omega
    rw [List.getElem?_append_right (by omega), hlen]
    by_cases h2 : k < target + n
    · rw [if_pos (by omega), List.getElem?_append_left (by rw [padded_field_length]; omega),
        padded_field_getElem?, if_pos (by omega)]
    · rw [if_neg (by omega), List.getElem?_append_right (by rw [padded_field_length]; omega),
        padded_field_length, List.getElem?_drop]
      congr 1
      omega

theorem std_string_extract (li : line_info) (i_begin n : Nat) (mem : List Char)
    (target : Nat) (hmem : target + n ≤ mem.length) :
    std_string (extract li i_begin n mem target) target n =
      padded_field li.data i_begin n := by
  apply List.ext_getElem?
  intro j
  rw [std_string_getElem?, padded_field_getElem?]
  by_cases hj : j < n
  · rw [if_pos hj, if_pos hj, extract_getElem? li i_begin n mem target _ hmem,
      if_pos (by omega), Nat.add_sub_cancel_left]
  · rw [if_neg hj, if_neg hj]

/-- C1: `extract` writes exactly the `n` bytes `target[0..n)`: the buffer keeps its
length, byte `j < n` of the target is `line[i_begin + j]` when `i_begin + j < size`
and a space otherwise, every byte outside `target[0..n)` is left as it was, a line
that ends at or before `i_begin` yields `n` spaces, and the bytes of the line at
offsets `>= i_begin + n` have no influence on the result. -/
theorem extract_writes_padded_window (li : line_info) (i_begin n : Nat)
    (mem : List Char) (target : Nat) (hmem : target + n ≤ mem.length) :
    (extract li i_begin n mem target).length = mem.length ∧
    (∀ j, j < n → (extract li i_begin n mem target)[target + j]? =
      some (if h : i_begin + j < li.size then li.data[i_begin + j] else ' ')) ∧
    (∀ k, k < target ∨ target + n ≤ k →
      (extract li i_begin n mem target)[k]? = mem[k]?) ∧
    (li.size ≤ i_begin →
      std_string (extract li i_begin n mem target) target n = List.replicate n ' ') ∧
    (∀ li2 : line_info, li2.data.take (i_begin + n) = li.data.take (i_begin + n) →
      extract li2 i_begin n mem target = extract li i_begin n mem target) := by
  refine ⟨extract_length li i_begin n mem target, ?_, ?_, ?_, ?_⟩
  · intro j hj
    rw [extract_getElem? li i_begin n mem target _ hmem, if_pos (by omega),
      Nat.add_sub_cancel_left]
    by_cases h : i_begin + j < li.size
    · rw [dif_pos h, List.getD_eq_getElem _ _ h]
    · rw [dif_neg h, List.getD_eq_default _ _ (by simp only [line_info.size] at h; omega)]
  · intro k hk
    rw [extract_getElem? li i_begin n mem target _ hmem, if_neg (by omega)]
  · intro hsz
    rw [std_string_extract li i_begin n mem target hmem]
    apply List.ext_getElem?
    intro j
    rw [padded_field_getElem?, List.getElem?_replicate]
    by_cases hj : j < n
    · rw [if_pos hj, if_pos hj,
        List.getD_eq_default _ _ (by simp only [line_info.size] at hsz; omega)]
    · rw [if_neg hj, if_neg hj]
  · intro li2 heq
    apply List.ext_getElem?
    intro k
    rw [extract_getElem? li2 i_begin n mem target _ hmem,
      extract_getElem? li i_begin n mem target _ hmem]
    by_cases hr : target ≤ k ∧ k < target + n
    · rw [if_pos hr, if_pos hr,
        getD_eq_of_take_eq li.data li2.data (i_begin + n) _ ' ' (by omega) heq]
    · rw [if_neg hr, if_neg hr]

/-- Witness for C1: a 3-byte line, field of width 4 starting at offset 1, written at
offset 1 of a 6-byte buffer. -/
theorem extract_writes_padded_window_witness :
    1 + 4 ≤ ['x', 'x', 'x', 'x', 'x', 'x'].length ∧
    ((extract ⟨none, 0, ['a', 'b', 'c'], [], 0, [], 0, []⟩ 1 4
        ['x', 'x', 'x', 'x', 'x', 'x'] 1).length = ['x', 'x', 'x', 'x', 'x', 'x'].length ∧
    (∀ j, j < 4 → (extract ⟨none, 0, ['a', 'b', 'c'], [], 0, [], 0, []⟩ 1 4
        ['x', 'x', 'x', 'x', 'x', 'x'] 1)[1 + j]? =
      some (if h : 1 + j < ['a', 'b', 'c'].length then ['a', 'b', 'c'][1 + j] else ' ')) ∧
    (∀ k, k < 1 ∨ 1 + 4 ≤ k →
      (extract ⟨none, 0, ['a', 'b', 'c'], [], 0, [], 0, []⟩ 1 4
        ['x', 'x', 'x', 'x', 'x', 'x'] 1)[k]? = ['x', 'x', 'x', 'x', 'x', 'x'][k]?) ∧
    (['a', 'b', 'c'].length ≤ 1 →
      std_string (extract ⟨none, 0, ['a', 'b', 'c'], [], 0, [], 0, []⟩ 1 4
        ['x', 'x', 'x', 'x', 'x', 'x'] 1) 1 4 = List.replicate 4 ' ') ∧
    (∀ li2 : line_info, li2.data.take (1 + 4) = ['a', 'b', 'c'].take (1 + 4) →
      extract li2 1 4 ['x', 'x', 'x', 'x', 'x', 'x'] 1 =
        extract ⟨none, 0, ['a', 'b', 'c'], [], 0, [], 0, []⟩ 1 4
          ['x', 'x', 'x', 'x', 'x', 'x'] 1)) :=
  ⟨by decide, extract_writes_padded_window ⟨none, 0, ['a', 'b', 'c'], [], 0, [], 0, []⟩ 1 4
    ['x', 'x', 'x', 'x', 'x', 'x'] 1 (by decide)⟩

end input_atom_labels

theorem std_string_append (mem : List Char) (ptr a b : Nat) :
    std_string mem ptr a ++ std_string mem (ptr + a) b = std_string mem ptr (a + b) := by
  unfold std_string
  rw [List.take_add, List.drop_drop]

theorem std_string_all (mem : List Char) : std_string mem 0 mem.length = mem := by
  unfold std_string
  simp

namespace input_atom_labels

theorem ctor_compacted_length (uninit : input_atom_labels) (li : line_info) :
    (ctor uninit li).compacted.length = uninit.compacted.length := by
  simp only [ctor, extract_length]

theorem ctor_compacted_getElem? (uninit : input_atom_labels) (li : line_info)
    (hsz : uninit.compacted.length = compacted_size) (k : Nat) :
    (ctor uninit li).compacted[k]? =
      if k < 15 then some (li.data.getD (12 + k) ' ')
      else if k < 19 then some (li.data.getD (57 + k) ' ')
      else none := by
  have h19 : uninit.compacted.length = 19 := hsz
  simp only [ctor, name_begin, altloc_begin, resname_begin, chain_begin, resseq_begin,
    icode_begin, segid_begin]
  rw [extract_getElem? _ _ _ _ _ _ (by simp only [extract_length]; omega),
    extract_getElem? _ _ _ _ _ _ (by simp only [extract_length]; omega),
    extract_getElem? _ _ _ _ _ _ (by simp only [extract_length]; omega),
    extract_getElem? _ _ _ _ _ _ (by simp only [extract_length]; omega),
    extract_getElem? _ _ _ _ _ _ (by simp only [extract_length]; omega),
    extract_getElem? _ _ _ _ _ _ (by simp only [extract_length]; omega),
    extract_getElem? _ _ _ _ _ _ (by omega)]
  have key : ∀ a b : Nat, a = b → some (li.data.getD a ' ') = some (li.data.getD b ' ') := by
    intro a b hab
    rw [hab]
  split_ifs <;> first
    | (apply key; omega)
    | (exact List.getElem?_eq_none (by omega))
    | omega

theorem ctor_field_low (uninit : input_atom_labels) (li : line_info)
    (hsz : uninit.compacted.length = compacted_size) (p n : Nat) (hp : p + n ≤ 15) :
    std_string (ctor uninit li).compacted p n = padded_field li.data (12 + p) n := by
  apply List.ext_getElem?
  intro j
  rw [std_string_getElem?, padded_field_getElem?]
  by_cases hj : j < n
  · rw [if_pos hj, if_pos hj, ctor_compacted_getElem? uninit li hsz, if_pos (by omega),
      Nat.add_assoc]
  · rw [if_neg hj, if_neg hj]

theorem ctor_field_high (uninit : input_atom_labels) (li : line_info)
    (hsz : uninit.compacted.length = compacted_size) (p n : Nat) (hp : 15 ≤ p)
    (hpn : p + n ≤ 19) :
    std_string (ctor uninit li).compacted p n = padded_field li.data (57 + p) n := by
  apply List.ext_getElem?
  intro j
  rw [std_string_getElem?, padded_field_getElem?]
  by_cases hj : j < n
  · rw [if_pos hj, if_pos hj, ctor_compacted_getElem? uninit li hsz, if_neg (by omega),
      if_pos (by omega), Nat.add_assoc]
  · rw [if_neg hj, if_neg hj]

/-- The seven fields, in storage order, make up the whole block. -/
theorem compacted_eq_fields (self : input_atom_labels)
    (hsz : self.compacted.length = compacted_size) :
    self.compacted =
      name self ++ (altloc self ++ (resname self ++ (std_string self.compacted chain_begin 2 ++
        (resseq self ++ (icode self ++ segid self))))) := by
  have h19 : self.compacted.length = 15 + 4 := hsz
  unfold name altloc resname resseq icode segid
  simp only [name_begin, altloc_begin, resname_begin, chain_begin, resseq_begin, icode_begin,
    segid_begin]
  rw [show (15 : Nat) = 14 + 1 from rfl, std_string_append,
    show (14 : Nat) = 10 + 4 from rfl, std_string_append,
    show (10 : Nat) = 8 + 2 from rfl, std_string_append,
    show (8 : Nat) = 5 + 3 from rfl, std_string_append,
    show (5 : Nat) = 4 + 1 from rfl, std_string_append,
    show (4 : Nat) = 0 + 4 from rfl, std_string_append]
  have := std_string_all self.compacted
  rw [h19] at this
  exact this.symm

/-- C2: for every line, the label built by the constructor has `name()` equal to the
blank-padded columns 13-16, `altloc()` to column 17, `resname()` to columns 18-20, the
raw 2-byte chain field to columns 21-22, `resseq()` to columns 23-26, `icode()` to
column 27 and `segid()` to columns 73-76; the seven fields start at offsets
0, 4, 5, 8, 10, 14, 15, each ends where the next begins, the last ends at byte 19,
and the block is exactly their concatenation. -/
theorem ctor_fields_are_columns (uninit : input_atom_labels) (li : line_info)
    (hsz : uninit.compacted.length = compacted_size) :
    name (ctor uninit li) = columns li.data 13 16 ∧
    altloc (ctor uninit li) = columns li.data 17 17 ∧
    resname (ctor uninit li) = columns li.data 18 20 ∧
    std_string (ctor uninit li).compacted chain_begin 2 = columns li.data 21 22 ∧
    resseq (ctor uninit li) = columns li.data 23 26 ∧
    icode (ctor uninit li) = columns li.data 27 27 ∧
    segid (ctor uninit li) = columns li.data 73 76 ∧
    (name_begin = 0 ∧ name_begin + 4 = altloc_begin ∧ altloc_begin + 1 = resname_begin ∧
      resname_begin + 3 = chain_begin ∧ chain_begin + 2 = resseq_begin ∧
      resseq_begin + 4 = icode_begin ∧ icode_begin + 1 = segid_begin ∧
      segid_begin + 4 = compacted_size ∧ compacted_size = 19) ∧
    (ctor uninit li).compacted.length = compacted_size ∧
    (ctor uninit li).compacted =
      columns li.data 13 16 ++ (columns li.data 17 17 ++ (columns li.data 18 20 ++
        (columns li.data 21 22 ++ (columns li.data 23 26 ++ (columns li.data 27 27 ++
          columns li.data 73 76))))) := by
  have hlen : (ctor uninit li).compacted.length = compacted_size := by
    rw [ctor_compacted_length, hsz]
  have h1 : name (ctor uninit li) = columns li.data 13 16 :=
    ctor_field_low uninit li hsz 0 4 (by omega)
  have h2 : altloc (ctor uninit li) = columns li.data 17 17 :=
    ctor_field_low uninit li hsz 4 1 (by omega)
  have h3 : resname (ctor uninit li) = columns li.data 18 20 :=
    ctor_field_low uninit li hsz 5 3 (by omega)
  have h4 : std_string (ctor uninit li).compacted chain_begin 2 = columns li.data 21 22 :=
    ctor_field_low uninit li hsz 8 2 (by omega)
  have h5 : resseq (ctor uninit li) = columns li.data 23 26 :=
    ctor_field_low uninit li hsz 10 4 (by omega)
  have h6 : icode (ctor uninit li) = columns li.data 27 27 :=
    ctor_field_low uninit li hsz 14 1 (by omega)
  have h7 : segid (ctor uninit li) = columns li.data 73 76 :=
    ctor_field_high uninit li hsz 15 4 (by omega) (by omega)
  refine ⟨h1, h2, h3, h4, h5, h6, h7, by decide, hlen, ?_⟩
  rw [← h1, ← h2, ← h3, ← h4, ← h5, ← h6, ← h7]
  exact compacted_eq_fields (ctor uninit li) hlen

/-- Witness for C2: the constructor run on an 80-column `ATOM` record over a block
with arbitrary prior contents. -/
theorem ctor_fields_are_columns_witness :
    sample_block.compacted.length = compacted_size ∧
    (name (ctor sample_block sample_line) = columns sample_line.data 13 16 ∧
    altloc (ctor sample_block sample_line) = columns sample_line.data 17 17 ∧
    resname (ctor sample_block sample_line) = columns sample_line.data 18 20 ∧
    std_string (ctor sample_block sample_line).compacted chain_begin 2 =
      columns sample_line.data 21 22 ∧
    resseq (ctor sample_block sample_line) = columns sample_line.data 23 26 ∧
    icode (ctor sample_block sample_line) = columns sample_line.data 27 27 ∧
    segid (ctor sample_block sample_line) = columns sample_line.data 73 76 ∧
    (name_begin = 0 ∧ name_begin + 4 = altloc_begin ∧ altloc_begin + 1 = resname_begin ∧
      resname_begin + 3 = chain_begin ∧ chain_begin + 2 = resseq_begin ∧
      resseq_begin + 4 = icode_begin ∧ icode_begin + 1 = segid_begin ∧
      segid_begin + 4 = compacted_size ∧ compacted_size = 19) ∧
    (ctor sample_block sample_line).compacted.length = compacted_size ∧
    (ctor sample_block sample_line).compacted =
      columns sample_line.data 13 16 ++ (columns sample_line.data 17 17 ++
        (columns sample_line.data 18 20 ++ (columns sample_line.data 21 22 ++
          (columns sample_line.data 23 26 ++ (columns sample_line.data 27 27 ++
            columns sample_line.data 73 76)))))) :=
  ⟨by decide, ctor_fields_are_columns sample_block sample_line (by decide)⟩

theorem are_equal_pad_iff (n : Nat) (mem : List Char) (target j : Nat) :
    are_equal.pad n mem target j = true ↔
      ∀ k, j ≤ k → k < n → mem.getD (target + k) default = ' ' := by
  induction j using are_equal.pad.induct n mem target with
  | case1 j hj hne =>
    rw [are_equal.pad, if_pos hj, if_pos hne]
    constructor
    · intro h
      exact absurd h (by decide)
    · intro h
      exact absurd (h j (Nat.le_refl j) hj) hne
  | case2 j hj heq ih =>
    rw [are_equal.pad, if_pos hj, if_neg heq, ih]
    constructor
    · intro h k hk hkn
      by_cases hkj : k = j
      · subst hkj
        exact not_not.mp heq
      · exact h k (by omega) hkn
    · intro h k hk hkn
      exact h k (by omega) hkn
  | case3 j hj =>
    rw [are_equal.pad, if_neg hj]
    constructor
    · intro _ k hk hkn
      omega
    · intro _
      rfl

theorem are_equal_cmp_iff (li : line_info) (n : Nat) (mem : List Char)
    (target i_begin j : Nat) (hjn : j ≤ n) :
    are_equal.cmp li n mem target i_begin j = true ↔
      ∀ k, j ≤ k → k < n →
        mem.getD (target + k) default = li.data.getD (i_begin + (k - j)) ' ' := by
  induction i_begin, j using are_equal.cmp.induct li n mem target with
  | case1 i_begin hi =>
    rw [are_equal.cmp, dif_pos hi, if_pos rfl]
    constructor
    · intro _ k hk hkn
      omega
    · intro _
      rfl
  | case2 i_begin j hi hj hne =>
    rw [are_equal.cmp, dif_pos hi, if_neg hj, if_pos hne]
    constructor
    · intro h
      exact absurd h (by decide)
    · intro h
      have := h j (Nat.le_refl j) (by omega)
      rw [Nat.sub_self, Nat.add_zero, List.getD_eq_getElem _ _ hi] at this
      exact absurd this hne
  | case3 i_begin j hi hj heq ih =>
    rw [are_equal.cmp, dif_pos hi, if_neg hj, if_neg heq, ih (by omega)]
    constructor
    · intro h k hk hkn
      by_cases hkj : k = j
      · subst hkj
        rw [Nat.sub_self, Nat.add_zero, List.getD_eq_getElem _ _ hi]
        exact not_not.mp heq
      · have := h k (by omega) hkn
        rw [this]
        congr 1
        omega
    · intro h k hk hkn
      have := h k (by omega) hkn
      rw [this]
      congr 1
      omega
  | case4 i_begin j hi =>
    rw [are_equal.cmp, dif_neg hi, are_equal_pad_iff]
    have hout : ∀ k, li.data.getD (i_begin + (k - j)) ' ' = ' ' := by
      intro k
      exact List.getD_eq_default _ _ (by simp only [line_info.size] at hi; omega)
    constructor
    · intro h k hk hkn
      rw [hout k]
      exact h k hk hkn
    · intro h k hk hkn
      rw [← hout k]
      exact h k hk hkn

theorem are_equal_iff_padded_field (li : line_info) (i_begin n : Nat) (mem : List Char)
    (target : Nat) (hmem : target + n ≤ mem.length) :
    are_equal li i_begin n mem target = true ↔
      std_string mem target n = padded_field li.data i_begin n := by
  unfold are_equal
  rw [are_equal_cmp_iff li n mem target i_begin 0 (Nat.zero_le n)]
  constructor
  · intro h
    apply List.ext_getElem?
    intro j
    rw [std_string_getElem?, padded_field_getElem?]
    by_cases hj : j < n
    · rw [if_pos hj, if_pos hj, List.getElem?_eq_getElem (by omega)]
      have := h j (Nat.zero_le j) hj
      rw [List.getD_eq_getElem _ _ (by omega), Nat.sub_zero] at this
      rw [this]
    · rw [if_neg hj, if_neg hj]
  · intro h k _ hkn
    have hk := congrArg (fun l => l[k]?) h
    simp only [std_string_getElem?, padded_field_getElem?, if_pos hkn] at hk
    rw [List.getElem?_eq_getElem (by omega)] at hk
    rw [List.getD_eq_getElem _ _ (by omega), Nat.sub_zero]
    exact Option.some.inj hk

/-- C3: `are_equal` uses the padding rule of `extract`: for a candidate `target` of
at least `n` bytes, `are_equal(line, i_begin, n, target)` is true exactly when the
`n` bytes that `extract(line, i_begin, n, .)` writes (into any buffer with room for
them) equal `target[0..n)`. -/
theorem are_equal_iff_extract_matches (li : line_info) (i_begin n : Nat)
    (mem : List Char) (target : Nat) (hmem : target + n ≤ mem.length)
    (buf : List Char) (dst : Nat) (hbuf : dst + n ≤ buf.length) :
    are_equal li i_begin n mem target = true ↔
      std_string (extract li i_begin n buf dst) dst n = std_string mem target n := by
  rw [are_equal_iff_padded_field li i_begin n mem target hmem,
    std_string_extract li i_begin n buf dst hbuf]
  exact eq_comm

/-- Witness for C3: the name columns of an 80-column `ATOM` record compared with a
4-byte candidate, the extraction going into a 19-byte block. -/
theorem are_equal_iff_extract_matches_witness :
    0 + 4 ≤ " N  ".toList.length ∧ 0 + 4 ≤ sample_block.compacted.length ∧
    (are_equal sample_line 12 4 " N  ".toList 0 = true ↔
      std_string (extract sample_line 12 4 sample_block.compacted 0) 0 4 =
        std_string " N  ".toList 0 4) :=
  ⟨by decide, by decide,
    are_equal_iff_extract_matches sample_line 12 4 " N  ".toList 0 (by decide)
      sample_block.compacted 0 (by decide)⟩

end input_atom_labels

theorem std_string_one (mem : List Char) (ptr : Nat) (c : Char)
    (h : mem[ptr]? = some c) : std_string mem ptr 1 = [c] := by
  apply List.ext_getElem?
  intro j
  rw [std_string_getElem?]
  cases j with
  | zero => simpa using h
  | succ j => simp

namespace input_atom_labels

/-- C4: chain rendering. Let `c0 c1` be the two bytes of the raw chain field; if
`c0` is a space then `chain()` is the 1-character string `c1`, otherwise it is the
2-character string `c0 c1`. -/
theorem chain_collapses_leading_blank (self : input_atom_labels) (c0 c1 : Char)
    (hfield : std_string self.compacted chain_begin 2 = [c0, c1]) :
    (c0 = ' ' → chain self = [c1]) ∧ (c0 ≠ ' ' → chain self = [c0, c1]) := by
  have h0 : self.compacted[8]? = some c0 := by
    have := congrArg (fun l => l[0]?) hfield
    simpa [std_string_getElem?, chain_begin] using this
  have h1 : self.compacted[9]? = some c1 := by
    have := congrArg (fun l => l[1]?) hfield
    simpa [std_string_getElem?, chain_begin] using this
  have hget : self.compacted.getD (chain_begin + 0) default = c0 := by
    simp [chain_begin, h0]
  constructor
  · intro hc
    rw [chain, if_pos (by rw [hget]; exact hc)]
    exact std_string_one self.compacted 9 c1 h1
  · intro hc
    rw [chain, if_neg (by rw [hget]; exact hc)]
    exact hfield

/-- Witness for C4: the raw chain field made of a blank and `X` renders as `X`, the
raw chain field `AB` renders as `AB`. -/
theorem chain_collapses_leading_blank_witness :
    (std_string sample_label_X.compacted chain_begin 2 = [' ', 'X'] ∧
      chain sample_label_X = ['X']) ∧
    (std_string sample_label_AB.compacted chain_begin 2 = ['A', 'B'] ∧
      chain sample_label_AB = ['A', 'B']) :=
  ⟨⟨by decide,
    (chain_collapses_leading_blank sample_label_X ' ' 'X' (by decide)).1 rfl⟩,
   ⟨by decide,
    (chain_collapses_leading_blank sample_label_AB 'A' 'B' (by decide)).2 (by decide)⟩⟩

end input_atom_labels

namespace line_info

theorem set_error_of_error (self : line_info) (c : Nat) (m : List Char)
    (h : self.error_column_ ≠ 0) : self.set_error c m = self := by
  rw [set_error, if_pos h]

theorem set_error_column (self : line_info) (c : Nat) (m : List Char) :
    (self.set_error c m).error_column_ =
      if self.error_column_ ≠ 0 then self.error_column_ else c := by
  unfold set_error
  split_ifs <;> rfl

/-- C5, as the code has it: when the first of two successive calls
`set_error(c1, m1)`, `set_error(c2, m2)` has a non-zero column, the second call is a
no-op, whatever the state before the first call was: the whole state, and so the
error state, is the one the first call left. -/
theorem set_error_first_nonzero_wins (self : line_info) (c1 c2 : Nat)
    (m1 m2 : List Char) (hc1 : c1 ≠ 0) :
    (self.set_error c1 m1).set_error c2 m2 = self.set_error c1 m1 ∧
    error_state ((self.set_error c1 m1).set_error c2 m2) =
      error_state (self.set_error c1 m1) := by
  have hcol : (self.set_error c1 m1).error_column_ ≠ 0 := by
    rw [set_error_column]
    split_ifs with h
    · exact h
    · exact hc1
  rw [set_error_of_error _ c2 m2 hcol]
  exact ⟨rfl, rfl⟩

/-- Witness for C5 as amended: a line constructed with a source name, first call at
column 5, second call at column 9. -/
theorem set_error_first_nonzero_wins_witness :
    5 ≠ 0 ∧
    (((ctor (some "sample.pdb".toList) sample_line).set_error 5 "first".toList).set_error
        9 "second".toList =
      (ctor (some "sample.pdb".toList) sample_line).set_error 5 "first".toList ∧
    error_state (((ctor (some "sample.pdb".toList) sample_line).set_error
        5 "first".toList).set_error 9 "second".toList) =
      error_state ((ctor (some "sample.pdb".toList) sample_line).set_error
        5 "first".toList)) :=
  ⟨by decide,
    set_error_first_nonzero_wins (ctor (some "sample.pdb".toList) sample_line) 5 9
      "first".toList "second".toList (by decide)⟩

/-- Counterexample to C5 as stated: on a line constructed with a source name, after
`set_error(0, "first")` the call `set_error(9, "second")` is not a no-op: it
replaces the recorded column and message. -/
theorem set_error_after_zero_column_overwrites :
    error_state (((ctor (some "sample.pdb".toList) sample_line).set_error
        0 "first".toList).set_error 9 "second".toList) ≠
      error_state ((ctor (some "sample.pdb".toList) sample_line).set_error
        0 "first".toList) := by
  decide

theorem error_occured_iff (self : line_info) :
    self.error_occured = true ↔ self.error_column_ ≠ 0 := by
  simp [error_occured]

end line_info

theorem error_occured_set_errors (li : line_info) (calls : List (Nat × List Char)) :
    (set_errors li calls).error_occured = true ↔
      li.error_column_ ≠ 0 ∨ ∃ c ∈ calls, c.1 ≠ 0 := by
  induction calls generalizing li with
  | nil => simp [set_errors, line_info.error_occured_iff]
  | cons c rest ih =>
    have hstep : set_errors li (c :: rest) = set_errors (li.set_error c.1 c.2) rest := rfl
    rw [hstep, ih, line_info.set_error_column]
    by_cases h : li.error_column_ ≠ 0
    · simp [h]
    · simp [h]

/-- C6: after constructing a `line_info` with a source name and applying any finite
sequence of `set_error` calls, `error_occured()` is true exactly when one of the
calls had a non-zero column; a freshly constructed `line_info` reports no error. -/
theorem error_occured_iff_nonzero_column_recorded (source_info_ : Option (List Char))
    (uninit : line_info) (calls : List (Nat × List Char)) :
    ((set_errors (line_info.ctor source_info_ uninit) calls).error_occured = true ↔
      ∃ c ∈ calls, c.1 ≠ 0) ∧
    (line_info.ctor source_info_ uninit).error_occured = false := by
  constructor
  · rw [error_occured_set_errors]
    simp [line_info.ctor]
  · rfl

namespace line_info

/-- Value of `sz` at the exit of the loop of `strip_data`. -/
theorem strip_data_loop_spec (self : line_info) (start : Nat) (sz : Nat)
    (h : sz ≤ self.size) :
    strip_data.loop self start sz h ≤ sz ∧
    (sz ≤ start → strip_data.loop self start sz h = sz) ∧
    (start < sz → start ≤ strip_data.loop self start sz h) ∧
    (∀ q, strip_data.loop self start sz h ≤ q → q < sz → self.data[q]? = some ' ') ∧
    (start < strip_data.loop self start sz h →
      ∃ c, self.data[strip_data.loop self start sz h - 1]? = some c ∧ c ≠ ' ') := by
  induction sz with
  | zero =>
    refine ⟨Nat.le_refl _, fun _ => rfl, fun h0 => absurd h0 (Nat.not_lt_zero _), ?_, ?_⟩
    · intro q _ hq
      exact absurd hq (Nat.not_lt_zero _)
    · intro h0
      exact absurd h0 (Nat.not_lt_zero _)
  | succ sz ih =>
    have hsz : sz < self.data.length := h
    by_cases hgt : sz + 1 > start
    · by_cases hne : self.data[sz] ≠ ' '
      · have hL : strip_data.loop self start (sz + 1) h = sz + 1 := by
          rw [strip_data.loop, if_pos hgt, if_pos hne]
        rw [hL]
        refine ⟨Nat.le_refl _, fun _ => rfl, fun _ => by omega, ?_, ?_⟩
        · intro q h1 h2
          omega
        · intro _
          refine ⟨self.data[sz], ?_, hne⟩
          rw [Nat.add_sub_cancel, List.getElem?_eq_getElem hsz]
      · have hL : strip_data.loop self start (sz + 1) h =
            strip_data.loop self start sz (Nat.le_of_succ_le h) := by
          rw [strip_data.loop, if_pos hgt, if_neg hne]
        rw [hL]
        obtain ⟨i1, i2, i3, i4, i5⟩ := ih (Nat.le_of_succ_le h)
        refine ⟨by omega, fun hle => by omega, ?_, ?_, i5⟩
        · intro _
          by_cases hs : start < sz
          · exact i3 hs
          · rw [i2 (by omega)]
            omega
        · intro q h1 h2
          by_cases hq : q = sz
          · subst hq
            rw [List.getElem?_eq_getElem hsz, not_not.mp hne]
          · exact i4 q h1 (by omega)
    · have hL : strip_data.loop self start (sz + 1) h = sz + 1 := by
        rw [strip_data.loop, if_neg hgt]
      rw [hL]
      refine ⟨Nat.le_refl _, fun _ => rfl, fun hlt => by omega, ?_, ?_⟩
      · intro q h1 h2
        omega
      · intro hlt
        omega

theorem strip_data_getElem? (self : line_info) (start j : Nat) :
    (self.strip_data start)[j]? =
      if start + j < strip_data.loop self start self.size (Nat.le_refl _) then
        self.data[start + j]?
      else none := by
  unfold strip_data
  simp only
  by_cases hL : strip_data.loop self start self.size (Nat.le_refl _) ≤ start
  · rw [if_pos hL, if_neg (by omega)]
    rfl
  · rw [if_neg hL, List.getElem?_drop]
    by_cases hj : start + j < strip_data.loop self start self.size (Nat.le_refl _)
    · rw [if_pos hj, List.getElem?_take_of_lt hj]
    · rw [if_neg hj, List.getElem?_take_eq_none (by omega)]

theorem strip_data_length (self : line_info) (start : Nat) :
    (self.strip_data start).length =
      strip_data.loop self start self.size (Nat.le_refl _) - start := by
  have hle := (strip_data_loop_spec self start self.size (Nat.le_refl _)).1
  unfold strip_data
  simp only
  generalize strip_data.loop self start self.size (Nat.le_refl _) = L at hle ⊢
  change L ≤ self.data.length at hle
  by_cases hL : L ≤ start
  · rw [if_pos hL]
    simp only [List.length_nil]
    omega
  · rw [if_neg hL, List.length_drop, List.length_take]
    omega

/-- C7: for every line and every start column `s` (also `s >= size`): the result of
`strip_data(s)` is empty or ends in a non-space byte, and `line[s..size)` is the
result followed only by spaces; hence when a last non-space byte exists at an offset
`p >= s` the result is `line[s..p]`, and when every byte from `s` on is a space (or
there is none) the result is empty. -/
theorem strip_data_removes_trailing_spaces (self : line_info) (start : Nat) :
    (self.strip_data start = [] ∨
      ∃ c, (self.strip_data start).getLast? = some c ∧ c ≠ ' ') ∧
    self.data.drop start = self.strip_data start ++
      List.replicate ((self.data.drop start).length - (self.strip_data start).length) ' ' ∧
    (∀ p c, start ≤ p → self.data[p]? = some c → c ≠ ' ' →
      (∀ q, p < q → q < self.size → self.data[q]? = some ' ') →
      self.strip_data start = (self.data.take (p + 1)).drop start) ∧
    ((∀ q, start ≤ q → q < self.size → self.data[q]? = some ' ') →
      self.strip_data start = []) := by
  obtain ⟨s1, s2, s3, s4, s5⟩ := strip_data_loop_spec self start self.size (Nat.le_refl _)
  have hget := strip_data_getElem? self start
  have hlen := strip_data_length self start
  have hdef : self.strip_data start =
      if strip_data.loop self start self.size (Nat.le_refl _) ≤ start then []
      else (self.data.take (strip_data.loop self start self.size (Nat.le_refl _))).drop
        start := rfl
  generalize strip_data.loop self start self.size (Nat.le_refl _) = L at *
  generalize self.strip_data start = r at *
  change L ≤ self.data.length at s1
  change self.data.length ≤ start → L = self.data.length at s2
  change start < self.data.length → start ≤ L at s3
  change ∀ q, L ≤ q → q < self.data.length → self.data[q]? = some ' ' at s4
  refine ⟨?_, ?_, ?_, ?_⟩
  · by_cases hL : L ≤ start
    · left
      rw [hdef, if_pos hL]
    · right
      obtain ⟨c, hc, hne⟩ := s5 (by omega)
      refine ⟨c, ?_, hne⟩
      rw [List.getLast?_eq_getElem?, hget, hlen, if_pos (by omega), ← hc]
      congr 1
      omega
  · apply List.ext_getElem?
    intro j
    rw [List.getElem?_drop, List.getElem?_append, hget, hlen, List.length_drop,
      List.getElem?_replicate]
    by_cases hj : start + j < L
    · rw [if_pos (by omega), if_pos hj]
    · rw [if_neg (by omega)]
      by_cases hq : start + j < self.data.length
      · rw [if_pos (by omega)]
        exact s4 (start + j) (by omega) hq
      · rw [if_neg (by omega)]
        exact List.getElem?_eq_none (by omega)
  · intro p c hp hc hne hafter
    have hplt : p < self.data.length := by
      by_contra hcon
      rw [List.getElem?_eq_none (by omega)] at hc
      exact Option.noConfusion hc
    have hLgt : start < L := by
      by_contra hcon
      have := s4 p (by omega) hplt
      rw [hc] at this
      exact hne (Option.some.inj this)
    obtain ⟨d, hd, hdne⟩ := s5 hLgt
    have hLp : L = p + 1 := by
      by_contra hcon
      by_cases hlt : L ≤ p
      · have := s4 p hlt hplt
        rw [hc] at this
        exact hne (Option.some.inj this)
      · have := hafter (L - 1) (by omega) (by show L - 1 < self.data.length; omega)
        rw [hd] at this
        exact hdne (Option.some.inj this)
    rw [hdef, if_neg (by omega), hLp]
  · intro hall
    by_cases hL : L ≤ start
    · rw [hdef, if_pos hL]
    · obtain ⟨d, hd, hdne⟩ := s5 (by omega)
      have := hall (L - 1) (by omega) (by show L - 1 < self.data.length; omega)
      rw [hd] at this
      exact absurd (Option.some.inj this) hdne

theorem is_blank_line_loop_iff (self : line_info) (i : Nat) :
    is_blank_line.loop self i = true ↔
      ∀ k, i ≤ k → k < self.size → self.data[k]? = some ' ' := by
  induction i using is_blank_line.loop.induct self with
  | case1 i hi hne =>
    rw [is_blank_line.loop, dif_pos hi, if_pos hne]
    constructor
    · intro h
      exact absurd h (by decide)
    · intro h
      have := h i (Nat.le_refl i) hi
      rw [List.getElem?_eq_getElem hi] at this
      exact absurd (Option.some.inj this) hne
  | case2 i hi heq ih =>
    rw [is_blank_line.loop, dif_pos hi, if_neg heq, ih]
    constructor
    · intro h k hk hks
      by_cases hki : k = i
      · subst hki
        rw [List.getElem?_eq_getElem hi, not_not.mp heq]
      · exact h k (by omega) hks
    · intro h k hk hks
      exact h k (by omega) hks
  | case3 i hi =>
    rw [is_blank_line.loop, dif_neg hi]
    constructor
    · intro _ k hk hks
      omega
    · intro _
      rfl

/-- C8: `is_blank_line()` is true exactly when every one of the `size` bytes of the
line is a space; the empty line is blank. -/
theorem is_blank_line_iff_all_spaces (self : line_info) :
    (self.is_blank_line = true ↔ ∀ i (h : i < self.size), self.data[i] = ' ') ∧
    (self.is_blank_line = true ↔ ∀ c ∈ self.data, c = ' ') ∧
    (self.size = 0 → self.is_blank_line = true) := by
  have h1 : self.is_blank_line = true ↔ ∀ i (h : i < self.size), self.data[i] = ' ' := by
    unfold is_blank_line
    rw [is_blank_line_loop_iff]
    constructor
    · intro h i hi
      have := h i (Nat.zero_le i) hi
      rw [List.getElem?_eq_getElem hi] at this
      exact Option.some.inj this
    · intro h k _ hk
      rw [List.getElem?_eq_getElem hk, h k hk]
  refine ⟨h1, ?_, ?_⟩
  · rw [h1]
    constructor
    · intro h c hc
      obtain ⟨i, hi, rfl⟩ := List.getElem_of_mem hc
      exact h i hi
    · intro h i hi
      exact h _ (List.getElem_mem hi)
  · intro h0
    rw [h1]
    intro i hi
    omega

end line_info

theorem std_string_eq_drop_take (mem : List Char) (ptr n : Nat) :
    std_string mem ptr n = (mem.take (ptr + n)).drop ptr := by
  unfold std_string
  rw [List.drop_take, Nat.add_sub_cancel_left]

theorem std_string_length (mem : List Char) (ptr n : Nat) (h : ptr + n ≤ mem.length) :
    (std_string mem ptr n).length = n := by
  unfold std_string
  rw [List.length_take, List.length_drop]
  omega

namespace input_atom_labels

/-- C9: for every label, `confid()` is `altloc()` followed by `resname()`, and it is
exactly the 4 bytes `[4,8)` of the compacted block. -/
theorem confid_eq_altloc_append_resname (self : input_atom_labels)
    (hsz : self.compacted.length = compacted_size) :
    confid self = altloc self ++ resname self ∧
    confid self = (self.compacted.take 8).drop 4 ∧
    (confid self).length = 4 := by
  have h19 : self.compacted.length = 19 := hsz
  refine ⟨?_, ?_, ?_⟩
  · exact (std_string_append self.compacted 4 1 3).symm
  · exact std_string_eq_drop_take self.compacted 4 4
  · exact std_string_length self.compacted 4 4 (by omega)

/-- Witness for C9 on a concrete 19-byte label. -/
theorem confid_eq_altloc_append_resname_witness :
    sample_label_AB.compacted.length = compacted_size ∧
    (confid sample_label_AB = altloc sample_label_AB ++ resname sample_label_AB ∧
    confid sample_label_AB = (sample_label_AB.compacted.take 8).drop 4 ∧
    (confid sample_label_AB).length = 4) :=
  ⟨by decide, confid_eq_altloc_append_resname sample_label_AB (by decide)⟩

theorem chain_length_pos (self : input_atom_labels)
    (hsz : self.compacted.length = compacted_size) : 1 ≤ (chain self).length := by
  have h19 : self.compacted.length = 19 := hsz
  unfold chain
  split_ifs
  · rw [std_string_length self.compacted (chain_begin + 1) 1 (by simp only [chain_begin]; omega)]
  · rw [std_string_length self.compacted chain_begin 2 (by simp only [chain_begin]; omega)]
    omega

/-- C10, as the code has it: for every label, `resid()` is the 5-byte window
`[10,15)` of the compacted block, made of the `resseq` field followed by the `icode`
field; the chain field is not part of it, so `resid()` is never `chain()` followed
by `resseq()` and `icode()`. -/
theorem resid_eq_resseq_append_icode (self : input_atom_labels)
    (hsz : self.compacted.length = compacted_size) :
    resid self = resseq self ++ icode self ∧
    resid self = (self.compacted.take 15).drop 10 ∧
    (resid self).length = 5 ∧
    resid self ≠ chain self ++ (resseq self ++ icode self) := by
  have h19 : self.compacted.length = 19 := hsz
  have hcat : resid self = resseq self ++ icode self :=
    (std_string_append self.compacted 10 4 1).symm
  have hlen : (resid self).length = 5 := std_string_length self.compacted 10 5 (by omega)
  refine ⟨hcat, std_string_eq_drop_take self.compacted 10 5, hlen, ?_⟩
  intro heq
  have hl := congrArg List.length heq
  rw [List.length_append, ← hcat, hlen] at hl
  have := chain_length_pos self hsz
  omega

/-- Witness for C10 as amended, on a concrete 19-byte label. -/
theorem resid_eq_resseq_append_icode_witness :
    sample_label_X.compacted.length = compacted_size ∧
    (resid sample_label_X = resseq sample_label_X ++ icode sample_label_X ∧
    resid sample_label_X = (sample_label_X.compacted.take 15).drop 10 ∧
    (resid sample_label_X).length = 5 ∧
    resid sample_label_X ≠
      chain sample_label_X ++ (resseq sample_label_X ++ icode sample_label_X)) :=
  ⟨by decide, resid_eq_resseq_append_icode sample_label_X (by decide)⟩

/-- Counterexample to C10 as stated: for the label with chain field blank-`X`,
`resseq` `  42` and blank `icode`, `resid()` is the 5 bytes `  42` and a blank,
whereas chain, resseq and icode together are the 6 bytes `X  42` and a blank. -/
theorem resid_is_not_chain_resseq_icode :
    resid sample_label_X = "  42 ".toList ∧
    chain sample_label_X ++ (resseq sample_label_X ++ icode sample_label_X) =
      "X  42 ".toList ∧
    resid sample_label_X ≠
      chain sample_label_X ++ (resseq sample_label_X ++ icode sample_label_X) := by
  decide

end input_atom_labels

theorem input_atom_labels.eq_of_compacted_eq (a b : input_atom_labels)
    (h : a.compacted = b.compacted) : a = b := by
  cases a
  cases b
  simp only [input_atom_labels.mk.injEq]
  exact h

namespace input_atom_labels

/-- Counterexample to C11 as stated: no 10-byte line gives the name field `AB` plus
two blanks; a 10-byte line ends before offset 12, where the name columns begin. -/
theorem no_ten_byte_line_has_name_AB :
    ¬ ∃ (li : line_info) (uninit : input_atom_labels),
      li.size = 10 ∧ uninit.compacted.length = compacted_size ∧
      name (ctor uninit li) = ['A', 'B', ' ', ' '] := by
  rintro ⟨li, uninit, hli, hsz, hname⟩
  have h := ctor_field_low uninit li hsz 0 4 (by omega)
  have h0 := congrArg (fun l => l[0]?) (hname.symm.trans h)
  simp only [padded_field_getElem?] at h0
  rw [List.getD_eq_default _ _ (by simp only [line_info.size] at hli; omega)] at h0
  exact absurd h0 (by decide)

/-- C11, as the code has it: there is a 14-byte line for which the name field built
by the constructor is `AB` followed by two padding spaces, the two bytes being those
at offsets 12 and 13 of the line; for every 10-byte line the name field is four
spaces. -/
theorem name_of_line_ending_inside_name_columns :
    (∃ li : line_info, li.size = 14 ∧ std_string li.data 12 4 = ['A', 'B'] ∧
      ∀ uninit : input_atom_labels, uninit.compacted.length = compacted_size →
        name (ctor uninit li) = ['A', 'B', ' ', ' ']) ∧
    (∀ (li : line_info) (uninit : input_atom_labels), li.size = 10 →
      uninit.compacted.length = compacted_size →
        name (ctor uninit li) = [' ', ' ', ' ', ' ']) := by
  constructor
  · refine ⟨sample_line_14, by decide, by decide, ?_⟩
    intro uninit hsz
    have h := ctor_field_low uninit sample_line_14 hsz 0 4 (by omega)
    rw [show name (ctor uninit sample_line_14) =
      std_string (ctor uninit sample_line_14).compacted 0 4 from rfl, h]
    decide
  · intro li uninit hli hsz
    have h := ctor_field_low uninit li hsz 0 4 (by omega)
    rw [show name (ctor uninit li) = std_string (ctor uninit li).compacted 0 4 from rfl, h]
    apply List.ext_getElem?
    intro j
    rw [padded_field_getElem?]
    by_cases hj : j < 4
    · rw [if_pos hj, List.getD_eq_default _ _ (by simp only [line_info.size] at hli; omega)]
      have : j = 0 ∨ j = 1 ∨ j = 2 ∨ j = 3 := by omega
      rcases this with rfl | rfl | rfl | rfl <;> rfl
    · rw [if_neg hj]
      exact (List.getElem?_eq_none (by simp; omega)).symm

/-- C12: the label depends only on the declared columns. Two lines that agree at
every offset in 12..26 and 72..75, an offset past the end of a line counting as a
space, give identical blocks, whatever the prior contents of the two blocks; in
particular overwriting a byte at any other offset (serial number, columns 28-72,
columns after 76) and appending spaces to the line leave the label unchanged. -/
theorem ctor_depends_only_on_declared_columns (uninit1 uninit2 : input_atom_labels)
    (hsz1 : uninit1.compacted.length = compacted_size)
    (hsz2 : uninit2.compacted.length = compacted_size) :
    (∀ li1 li2 : line_info,
      (∀ k, (12 ≤ k ∧ k ≤ 26) ∨ (72 ≤ k ∧ k ≤ 75) →
        li1.data.getD k ' ' = li2.data.getD k ' ') →
      ctor uninit1 li1 = ctor uninit2 li2) ∧
    (∀ (li : line_info) (k : Nat) (c : Char),
      ¬ ((12 ≤ k ∧ k ≤ 26) ∨ (72 ≤ k ∧ k ≤ 75)) →
      ctor uninit1 { li with data := li.data.set k c } = ctor uninit1 li) ∧
    (∀ (li : line_info) (m : Nat),
      ctor uninit1 { li with data := li.data ++ List.replicate m ' ' } =
        ctor uninit1 li) := by
  have main : ∀ (u1 u2 : input_atom_labels), u1.compacted.length = compacted_size →
      u2.compacted.length = compacted_size → ∀ li1 li2 : line_info,
      (∀ k, (12 ≤ k ∧ k ≤ 26) ∨ (72 ≤ k ∧ k ≤ 75) →
        li1.data.getD k ' ' = li2.data.getD k ' ') →
      ctor u1 li1 = ctor u2 li2 := by
    intro u1 u2 h1 h2 li1 li2 hagree
    apply eq_of_compacted_eq
    apply List.ext_getElem?
    intro k
    rw [ctor_compacted_getElem? u1 li1 h1, ctor_compacted_getElem? u2 li2 h2]
    by_cases hk : k < 15
    · rw [if_pos hk, if_pos hk, hagree (12 + k) (by omega)]
    · rw [if_neg hk, if_neg hk]
      by_cases hk2 : k < 19
      · rw [if_pos hk2, if_pos hk2, hagree (57 + k) (by omega)]
      · rw [if_neg hk2, if_neg hk2]
  refine ⟨main uninit1 uninit2 hsz1 hsz2, ?_, ?_⟩
  · intro li k c hk
    apply main uninit1 uninit1 hsz1 hsz1
    intro q hq
    have hne : k ≠ q := by omega
    simp only [List.getD_eq_getElem?_getD, List.getElem?_set_ne hne]
  · intro li m
    apply main uninit1 uninit1 hsz1 hsz1
    intro q _
    simp only [List.getD_eq_getElem?_getD]
    by_cases hq : q < li.data.length
    · rw [List.getElem?_append_left hq]
    · rw [List.getElem?_append_right (by omega), List.getElem?_replicate,
        List.getElem?_eq_none (by omega)]
      split_ifs <;> rfl

/-- Witness for C12: two blocks with different prior contents, the 80-column sample
record against itself. -/
theorem ctor_depends_only_on_declared_columns_witness :
    sample_block.compacted.length = compacted_size ∧
    sample_label_X.compacted.length = compacted_size ∧
    ((∀ li1 li2 : line_info,
      (∀ k, (12 ≤ k ∧ k ≤ 26) ∨ (72 ≤ k ∧ k ≤ 75) →
        li1.data.getD k ' ' = li2.data.getD k ' ') →
      ctor sample_block li1 = ctor sample_label_X li2) ∧
    (∀ (li : line_info) (k : Nat) (c : Char),
      ¬ ((12 ≤ k ∧ k ≤ 26) ∨ (72 ≤ k ∧ k ≤ 75)) →
      ctor sample_block { li with data := li.data.set k c } = ctor sample_block li) ∧
    (∀ (li : line_info) (m : Nat),
      ctor sample_block { li with data := li.data ++ List.replicate m ' ' } =
        ctor sample_block li)) :=
  ⟨by decide, by decide,
    ctor_depends_only_on_declared_columns sample_block sample_label_X (by decide)
      (by decide)⟩

end input_atom_labels

namespace range_loop

theorem next_of_ne (s : range_loop) (h : s.i ≠ s.indices.length) :
    next s = (true,
      { s with
        i := s.i + 1
        begin := s.end_
        end_ := s.indices.getD s.i 0 % unsigned_range
        size := (s.indices.getD s.i 0 % unsigned_range + unsigned_range - s.end_) %
          unsigned_range }) := by
  unfold next
  rw [if_neg h]

theorem next_of_eq (s : range_loop) (h : s.i = s.indices.length) :
    next s = (false, s) := by
  unfold next
  rw [if_pos h]

/-- State reached after `k` calls of `next()` on a fresh loop, while `k` does not
exceed the number of indices. -/
theorem nexts_ctor_fields (idx : List Nat) (b : Nat) (uninit : range_loop)
    (hidx : ∀ x ∈ idx, x < unsigned_range) (k : Nat) (hk : k ≤ idx.length) :
    (nexts (ctor idx b uninit) k).indices = idx ∧
    (nexts (ctor idx b uninit) k).i = k ∧
    (nexts (ctor idx b uninit) k).end_ = (if k = 0 then b else idx.getD (k - 1) 0) := by
  induction k with
  | zero => exact ⟨rfl, rfl, rfl⟩
  | succ k ih =>
    obtain ⟨h1, h2, h3⟩ := ih (by omega)
    have hne : (nexts (ctor idx b uninit) k).i ≠
        (nexts (ctor idx b uninit) k).indices.length := by
      rw [h1, h2]
      omega
    have hstep : nexts (ctor idx b uninit) (k + 1) =
        (next (nexts (ctor idx b uninit) k)).2 := rfl
    rw [hstep, next_of_ne _ hne]
    refine ⟨h1, by simp only [h2], ?_⟩
    simp only [h1, h2, Nat.add_sub_cancel, if_neg (Nat.succ_ne_zero k)]
    have hlt : idx.getD k 0 < unsigned_range := by
      rw [List.getD_eq_getElem _ _ (by omega : k < idx.length)]
      exact hidx _ (List.getElem_mem _)
    exact Nat.mod_eq_of_lt hlt

theorem nexts_ctor_exhausted (idx : List Nat) (b : Nat) (uninit : range_loop)
    (hidx : ∀ x ∈ idx, x < unsigned_range) (k : Nat) (hk : idx.length ≤ k) :
    nexts (ctor idx b uninit) k = nexts (ctor idx b uninit) idx.length := by
  induction k with
  | zero =>
    have : idx.length = 0 := by omega
    rw [this]
  | succ k ih =>
    by_cases hk2 : idx.length = k + 1
    · rw [hk2]
    · have hprev := ih (by omega)
      obtain ⟨h1, h2, _⟩ := nexts_ctor_fields idx b uninit hidx idx.length (Nat.le_refl _)
      have hstep : nexts (ctor idx b uninit) (k + 1) =
          (next (nexts (ctor idx b uninit) k)).2 := rfl
      rw [hstep, hprev, next_of_eq _ (by rw [h1, h2])]

end range_loop

namespace range_loop

/-- The `k`-th call of `next()` (counting from 0) on a fresh loop, for `k` below the
number of indices. -/
theorem next_step (idx : List Nat) (b : Nat) (uninit : range_loop)
    (hidx : ∀ x ∈ idx, x < unsigned_range) (k : Nat) (hk : k < idx.length) :
    (next (nexts (ctor idx b uninit) k)).1 = true ∧
    (nexts (ctor idx b uninit) (k + 1)).end_ = idx.getD k 0 ∧
    (nexts (ctor idx b uninit) (k + 1)).begin = (nexts (ctor idx b uninit) k).end_ ∧
    (nexts (ctor idx b uninit) (k + 1)).size =
      (idx.getD k 0 + unsigned_range - (nexts (ctor idx b uninit) k).end_) %
        unsigned_range := by
  obtain ⟨h1, h2, _⟩ := nexts_ctor_fields idx b uninit hidx k (by omega)
  obtain ⟨_, _, g3⟩ := nexts_ctor_fields idx b uninit hidx (k + 1) (by omega)
  have hne : (nexts (ctor idx b uninit) k).i ≠
      (nexts (ctor idx b uninit) k).indices.length := by
    rw [h1, h2]
    omega
  have hstep : nexts (ctor idx b uninit) (k + 1) =
      (next (nexts (ctor idx b uninit) k)).2 := rfl
  have hend : (nexts (ctor idx b uninit) (k + 1)).end_ = idx.getD k 0 := by
    rw [g3, if_neg (Nat.succ_ne_zero k), Nat.add_sub_cancel]
  refine ⟨by rw [next_of_ne _ hne], hend, by rw [hstep, next_of_ne _ hne], ?_⟩
  have hlt : idx.getD k 0 < unsigned_range := by
    rw [List.getD_eq_getElem _ _ hk]
    exact hidx _ (List.getElem_mem _)
  rw [hstep, next_of_ne _ hne]
  simp only [h1, h2, Nat.mod_eq_of_lt hlt]

theorem end_lt_unsigned_range (idx : List Nat) (b : Nat) (uninit : range_loop)
    (hb : b < unsigned_range) (hidx : ∀ x ∈ idx, x < unsigned_range) (k : Nat)
    (hk : k ≤ idx.length) : (nexts (ctor idx b uninit) k).end_ < unsigned_range := by
  obtain ⟨_, _, h3⟩ := nexts_ctor_fields idx b uninit hidx k hk
  rw [h3]
  split_ifs with h0
  · exact hb
  · rw [List.getD_eq_getElem _ _ (by omega : k - 1 < idx.length)]
    exact hidx _ (List.getElem_mem _)

/-- For a non-decreasing index sequence starting at or above `b`, the value of `end`
never decreases from one call to the next. -/
theorem end_monotone (idx : List Nat) (b : Nat) (uninit : range_loop)
    (hidx : ∀ x ∈ idx, x < unsigned_range)
    (hfirst : 0 < idx.length → b ≤ idx.getD 0 0)
    (hmono : ∀ k, k + 1 < idx.length → idx.getD k 0 ≤ idx.getD (k + 1) 0)
    (k : Nat) (hk : k < idx.length) :
    (nexts (ctor idx b uninit) k).end_ ≤ idx.getD k 0 := by
  obtain ⟨_, _, h3⟩ := nexts_ctor_fields idx b uninit hidx k (by omega)
  rw [h3]
  split_ifs with h0
  · subst h0
    exact hfirst hk
  · have := hmono (k - 1) (by omega)
    rw [show k - 1 + 1 = k by omega] at this
    exact this

theorem sizes_sum (idx : List Nat) (b : Nat) (uninit : range_loop)
    (hidx : ∀ x ∈ idx, x < unsigned_range)
    (hfirst : 0 < idx.length → b ≤ idx.getD 0 0)
    (hmono : ∀ k, k + 1 < idx.length → idx.getD k 0 ≤ idx.getD (k + 1) 0)
    (n : Nat) (hn : n ≤ idx.length) :
    b ≤ (nexts (ctor idx b uninit) n).end_ ∧
    ((List.range n).map (fun k => (nexts (ctor idx b uninit) (k + 1)).size)).sum =
      (nexts (ctor idx b uninit) n).end_ - b := by
  induction n with
  | zero =>
    have h0 : (nexts (ctor idx b uninit) 0).end_ = b := rfl
    rw [h0]
    simp
  | succ n ih =>
    obtain ⟨i1, i2⟩ := ih (by omega)
    obtain ⟨_, s2, _, s4⟩ := next_step idx b uninit hidx n (by omega)
    have hle := end_monotone idx b uninit hidx hfirst hmono n (by omega)
    have hlt : idx.getD n 0 < unsigned_range := by
      rw [List.getD_eq_getElem _ _ (by omega : n < idx.length)]
      exact hidx _ (List.getElem_mem _)
    have hsize : (nexts (ctor idx b uninit) (n + 1)).size =
        idx.getD n 0 - (nexts (ctor idx b uninit) n).end_ := by
      rw [s4]
      have : idx.getD n 0 + unsigned_range - (nexts (ctor idx b uninit) n).end_ =
          (idx.getD n 0 - (nexts (ctor idx b uninit) n).end_) + unsigned_range := by omega
      rw [this, Nat.add_mod_right]
      exact Nat.mod_eq_of_lt (by omega)
    rw [List.range_succ, List.map_append, List.sum_append, i2, s2]
    simp only [List.map_cons, List.map_nil, List.sum_cons, List.sum_nil, Nat.add_zero]
    rw [hsize]
    omega

end range_loop

namespace range_loop

/-- C13: for an index sequence `idx` of length `m` with values below `2^32` and an
initial `begin` `b`, the `k`-th call of `next()` (counting from 0) returns true for
`k < m` and sets `end = idx[k]`, `begin` = the previous `end` (`b` for the first
call) and `size = end - begin` in `unsigned` arithmetic; every call from the `m`-th
on returns false and changes nothing. When `b <= idx[0]` and `idx` is non-decreasing
every window has `begin <= end` and `size = end - begin` exactly, each window begins
where the previous one ended, and the sizes sum to `idx[m-1] - b`. An empty index
sequence yields no window. -/
theorem next_yields_contiguous_windows (idx : List Nat) (b : Nat) (uninit : range_loop)
    (hb : b < unsigned_range) (hidx : ∀ x ∈ idx, x < unsigned_range) :
    (∀ k, k < idx.length →
      (next (nexts (ctor idx b uninit) k)).1 = true ∧
      (nexts (ctor idx b uninit) (k + 1)).end_ = idx.getD k 0 ∧
      (nexts (ctor idx b uninit) (k + 1)).begin =
        (if k = 0 then b else idx.getD (k - 1) 0) ∧
      (nexts (ctor idx b uninit) (k + 1)).begin = (nexts (ctor idx b uninit) k).end_ ∧
      ((nexts (ctor idx b uninit) (k + 1)).size : Int) =
        (((nexts (ctor idx b uninit) (k + 1)).end_ : Int) -
          (nexts (ctor idx b uninit) (k + 1)).begin) % (2 ^ 32 : Int)) ∧
    (∀ k, idx.length ≤ k →
      (next (nexts (ctor idx b uninit) k)).1 = false ∧
      nexts (ctor idx b uninit) (k + 1) = nexts (ctor idx b uninit) k) ∧
    ((0 < idx.length → b ≤ idx.getD 0 0) →
      (∀ k, k + 1 < idx.length → idx.getD k 0 ≤ idx.getD (k + 1) 0) →
      (∀ k, k < idx.length →
        (nexts (ctor idx b uninit) (k + 1)).begin ≤
          (nexts (ctor idx b uninit) (k + 1)).end_ ∧
        (nexts (ctor idx b uninit) (k + 1)).size =
          (nexts (ctor idx b uninit) (k + 1)).end_ -
            (nexts (ctor idx b uninit) (k + 1)).begin) ∧
      (0 < idx.length →
        ((List.range idx.length).map
          (fun k => (nexts (ctor idx b uninit) (k + 1)).size)).sum =
            idx.getD (idx.length - 1) 0 - b)) ∧
    (idx = [] → (next (ctor idx b uninit)).1 = false) := by
  have hexh : ∀ k, idx.length ≤ k →
      (next (nexts (ctor idx b uninit) k)).1 = false ∧
      nexts (ctor idx b uninit) (k + 1) = nexts (ctor idx b uninit) k := by
    intro k hk
    obtain ⟨h1, h2, _⟩ := nexts_ctor_fields idx b uninit hidx idx.length (Nat.le_refl _)
    have hk0 := nexts_ctor_exhausted idx b uninit hidx k hk
    have hstep : nexts (ctor idx b uninit) (k + 1) =
        (next (nexts (ctor idx b uninit) k)).2 := rfl
    have hnext : next (nexts (ctor idx b uninit) k) =
        (false, nexts (ctor idx b uninit) k) := by
      rw [hk0]
      exact next_of_eq _ (by rw [h1, h2])
    exact ⟨by rw [hnext], by rw [hstep, hnext]⟩
  refine ⟨?_, hexh, ?_, ?_⟩
  · intro k hk
    obtain ⟨s1, s2, s3, s4⟩ := next_step idx b uninit hidx k hk
    obtain ⟨_, _, h3⟩ := nexts_ctor_fields idx b uninit hidx k (by omega)
    have hlt : idx.getD k 0 < unsigned_range := by
      rw [List.getD_eq_getElem _ _ hk]
      exact hidx _ (List.getElem_mem _)
    have hprev := end_lt_unsigned_range idx b uninit hb hidx k (by omega)
    refine ⟨s1, s2, by rw [s3, h3], s3, ?_⟩
    rw [s4, s2, s3]
    simp only [unsigned_range] at hlt hprev ⊢
    omega
  · intro hfirst hmono
    constructor
    · intro k hk
      obtain ⟨_, s2, s3, s4⟩ := next_step idx b uninit hidx k hk
      have hle := end_monotone idx b uninit hidx hfirst hmono k hk
      have hlt : idx.getD k 0 < unsigned_range := by
        rw [List.getD_eq_getElem _ _ hk]
        exact hidx _ (List.getElem_mem _)
      refine ⟨by rw [s2, s3]; exact hle, ?_⟩
      rw [s4, s2, s3]
      have : idx.getD k 0 + unsigned_range - (nexts (ctor idx b uninit) k).end_ =
          (idx.getD k 0 - (nexts (ctor idx b uninit) k).end_) + unsigned_range := by omega
      rw [this, Nat.add_mod_right]
      exact Nat.mod_eq_of_lt (by omega)
    · intro hpos
      obtain ⟨_, hsum⟩ := sizes_sum idx b uninit hidx hfirst hmono idx.length (Nat.le_refl _)
      obtain ⟨_, _, h3⟩ := nexts_ctor_fields idx b uninit hidx idx.length (Nat.le_refl _)
      rw [hsum, h3, if_neg (by omega)]
  · intro hnil
    subst hnil
    exact (hexh 0 (Nat.le_refl _)).1

/-- Witness for C13: the index sequence 3, 5, 5, 9 with initial `begin` 1. -/
theorem next_yields_contiguous_windows_witness :
    1 < unsigned_range ∧ (∀ x ∈ [3, 5, 5, 9], x < unsigned_range) ∧
    (next (nexts (ctor [3, 5, 5, 9] 1 sample_range_loop) 2)).1 = true ∧
    (nexts (ctor [3, 5, 5, 9] 1 sample_range_loop) (2 + 1)).end_ =
      [3, 5, 5, 9].getD 2 0 ∧
    ((List.range [3, 5, 5, 9].length).map
      (fun k => (nexts (ctor [3, 5, 5, 9] 1 sample_range_loop) (k + 1)).size)).sum =
        [3, 5, 5, 9].getD ([3, 5, 5, 9].length - 1) 0 - 1 ∧
    (next (nexts (ctor [3, 5, 5, 9] 1 sample_range_loop) 4)).1 = false :=
  have h := next_yields_contiguous_windows [3, 5, 5, 9] 1 sample_range_loop
    (by decide) (by decide)
  ⟨by decide, by decide, (h.1 2 (by decide)).1, (h.1 2 (by decide)).2.1,
    (h.2.2.1 (by decide)
      (by
        intro k hk
        have hk3 : k < 3 := by
          have h4 : k + 1 < 4 := hk
          omega
        interval_cases k <;> decide)).2 (by decide),
    (h.2.1 4 (by decide)).1⟩

end range_loop

namespace range_loop

end range_loop

namespace line_info

theorem set_error_of_no_error (self : line_info) (c : Nat) (m : List Char)
    (h : self.error_column_ = 0) :
    error_state (self.set_error c m) =
      ((match self.source_info with
        | some s => s
        | none => []), self.line_number, self.data, c, m) := by
  unfold set_error
  rw [if_neg (by rw [h]; exact fun h0 => h0 rfl)]
  rfl

theorem set_error_public (self : line_info) (c : Nat) (m : List Char) :
    (self.set_error c m).source_info = self.source_info ∧
    (self.set_error c m).line_number = self.line_number ∧
    (self.set_error c m).data = self.data ∧
    (self.set_error c m).size = self.size := by
  unfold set_error
  split_ifs <;> exact ⟨rfl, rfl, rfl, rfl⟩

end line_info

theorem run_calls_append (li : line_info) (pre post : List set_error_call) :
    run_calls li (pre ++ post) = run_calls (run_calls li pre) post := by
  unfold run_calls
  rw [List.foldl_append]

theorem run_calls_cons (li : line_info) (c : set_error_call) (rest : List set_error_call) :
    run_calls li (c :: rest) =
      run_calls ((assign_public li c).set_error c.error_column c.error_message) rest := rfl

theorem run_calls_of_error (li : line_info) (calls : List set_error_call)
    (h : li.error_column_ ≠ 0) : error_state (run_calls li calls) = error_state li := by
  induction calls generalizing li with
  | nil => rfl
  | cons c rest ih =>
    have hc : (assign_public li c).error_column_ ≠ 0 := h
    rw [run_calls_cons, line_info.set_error_of_error _ _ _ hc, ih _ hc]
    rfl

theorem run_calls_all_zero (li : line_info) (calls : List set_error_call)
    (h : li.error_column_ = 0) (hz : ∀ x ∈ calls, x.error_column = 0) :
    (run_calls li calls).error_column_ = 0 := by
  induction calls generalizing li with
  | nil => exact h
  | cons c rest ih =>
    rw [run_calls_cons]
    apply ih
    · rw [line_info.set_error_column]
      have hc : (assign_public li c).error_column_ = 0 := h
      rw [if_neg (by rw [hc]; exact fun h0 => h0 rfl)]
      exact hz c (List.mem_cons_self _ _)
    · intro x hx
      exact hz x (List.mem_cons_of_mem _ hx)

/-- C16: on a `line_info` constructed with a source name, after any finite sequence
of `set_error` calls the attached error (source name, line number and line text as
they were when the call was made, column and message) is that of the first call
whose column is non-zero; while only calls with column 0 have been made no error is
attached, so such calls never block a later one; and `set_error` never changes the
public members `source_info`, `line_number`, `data` and `size`. -/
theorem first_nonzero_set_error_is_attached (source_info_ : Option (List Char))
    (uninit : line_info) :
    (∀ (pre post : List set_error_call) (c : set_error_call),
      (∀ x ∈ pre, x.error_column = 0) → c.error_column ≠ 0 →
      error_state (run_calls (line_info.ctor source_info_ uninit) (pre ++ c :: post)) =
        snapshot c ∧
      (run_calls (line_info.ctor source_info_ uninit) (pre ++ c :: post)).error_occured =
        true) ∧
    (∀ calls : List set_error_call, (∀ x ∈ calls, x.error_column = 0) →
      (run_calls (line_info.ctor source_info_ uninit) calls).error_occured = false) ∧
    (∀ (li : line_info) (c : Nat) (m : List Char),
      (li.set_error c m).source_info = li.source_info ∧
      (li.set_error c m).line_number = li.line_number ∧
      (li.set_error c m).data = li.data ∧
      (li.set_error c m).size = li.size) := by
  refine ⟨?_, ?_, line_info.set_error_public⟩
  · intro pre post c hpre hc
    have h0 : (run_calls (line_info.ctor source_info_ uninit) pre).error_column_ = 0 :=
      run_calls_all_zero _ pre rfl hpre
    have hz : (assign_public (run_calls (line_info.ctor source_info_ uninit) pre)
        c).error_column_ = 0 := h0
    have hstate : error_state ((assign_public
        (run_calls (line_info.ctor source_info_ uninit) pre) c).set_error
          c.error_column c.error_message) = snapshot c :=
      line_info.set_error_of_no_error _ _ _ hz
    have hcol : ((assign_public (run_calls (line_info.ctor source_info_ uninit) pre)
        c).set_error c.error_column c.error_message).error_column_ ≠ 0 := by
      rw [line_info.set_error_column, if_neg (by rw [hz]; exact fun h => h rfl)]
      exact hc
    have hfinal := run_calls_of_error _ post hcol
    rw [run_calls_append, run_calls_cons]
    refine ⟨hfinal.trans hstate, ?_⟩
    rw [line_info.error_occured_iff]
    have h4 := congrArg (fun t => t.2.2.2.1) hfinal
    simp only [error_state] at h4
    rw [h4]
    exact hcol
  · intro calls hz
    have h0 := run_calls_all_zero (line_info.ctor source_info_ uninit) calls rfl hz
    simp [line_info.error_occured, h0]

namespace input_atom_labels

theorem chain_eq_of_field (self : input_atom_labels) (c0 c1 : Char)
    (hfield : std_string self.compacted chain_begin 2 = [c0, c1]) :
    chain self = if c0 = ' ' then [c1] else [c0, c1] := by
  have h0 : self.compacted[8]? = some c0 := by
    have := congrArg (fun l => l[0]?) hfield
    simpa [std_string_getElem?, chain_begin] using this
  have h1 : self.compacted[9]? = some c1 := by
    have := congrArg (fun l => l[1]?) hfield
    simpa [std_string_getElem?, chain_begin] using this
  have hget : self.compacted.getD (chain_begin + 0) default = c0 := by
    simp [chain_begin, h0]
  unfold chain
  rw [hget]
  split_ifs
  · exact std_string_one self.compacted 9 c1 h1
  · exact hfield

/-- C17: chain rendering is injective on the raw 2-byte chain field. For labels with
raw chain fields `a0 a1` and `b0 b1`: different fields give different `chain()`
strings; a 1-character result `c` means the field is a blank followed by `c`; a
2-character result is the field itself; the result is never empty, and the fully
blank field renders as the 1-character string holding a blank. -/
theorem chain_injective_on_raw_field (l1 l2 : input_atom_labels) (a0 a1 b0 b1 : Char)
    (h1 : std_string l1.compacted chain_begin 2 = [a0, a1])
    (h2 : std_string l2.compacted chain_begin 2 = [b0, b1]) :
    ([a0, a1] ≠ [b0, b1] → chain l1 ≠ chain l2) ∧
    (∀ c, chain l1 = [c] → a0 = ' ' ∧ a1 = c) ∧
    (∀ c d, chain l1 = [c, d] → a0 = c ∧ a1 = d) ∧
    chain l1 ≠ [] ∧
    (a0 = ' ' → a1 = ' ' → chain l1 = [' ']) := by
  have e1 := chain_eq_of_field l1 a0 a1 h1
  have e2 := chain_eq_of_field l2 b0 b1 h2
  refine ⟨?_, ?_, ?_, ?_, ?_⟩
  · intro hne heq
    rw [e1, e2] at heq
    apply hne
    by_cases ha : a0 = ' '
    · by_cases hb : b0 = ' '
      · rw [if_pos ha, if_pos hb] at heq
        rw [ha, hb, List.cons.inj heq |>.1]
      · rw [if_pos ha, if_neg hb] at heq
        exact absurd (congrArg List.length heq) (by simp)
    · by_cases hb : b0 = ' '
      · rw [if_neg ha, if_pos hb] at heq
        exact absurd (congrArg List.length heq) (by simp)
      · rw [if_neg ha, if_neg hb] at heq
        exact heq
  · intro c hc
    rw [e1] at hc
    by_cases ha : a0 = ' '
    · rw [if_pos ha] at hc
      exact ⟨ha, (List.cons.inj hc).1⟩
    · rw [if_neg ha] at hc
      exact absurd (congrArg List.length hc) (by simp)
  · intro c d hcd
    rw [e1] at hcd
    by_cases ha : a0 = ' '
    · rw [if_pos ha] at hcd
      exact absurd (congrArg List.length hcd) (by simp)
    · rw [if_neg ha] at hcd
      have hh := List.cons.inj hcd
      exact ⟨hh.1, (List.cons.inj hh.2).1⟩
  · rw [e1]
    split_ifs <;> exact List.cons_ne_nil _ _
  · intro ha hb
    rw [e1, if_pos ha, hb]

/-- Witness for C17: the labels with raw chain fields blank-`X` and `AB` render
differently, and the label with a fully blank chain field renders as one blank. -/
theorem chain_injective_on_raw_field_witness :
    std_string sample_label_X.compacted chain_begin 2 = [' ', 'X'] ∧
    std_string sample_label_AB.compacted chain_begin 2 = ['A', 'B'] ∧
    chain sample_label_X ≠ chain sample_label_AB ∧
    std_string sample_label_blank.compacted chain_begin 2 = [' ', ' '] ∧
    chain sample_label_blank = [' '] :=
  ⟨by decide, by decide,
    (chain_injective_on_raw_field sample_label_X sample_label_AB ' ' 'X' 'A' 'B'
      (by decide) (by decide)).1 (by decide),
    by decide,
    (chain_injective_on_raw_field sample_label_blank sample_label_blank ' ' ' ' ' ' ' '
      (by decide) (by decide)).2.2.2.2 rfl rfl⟩

end input_atom_labels

theorem char_lt_iff_toNat (a b : Char) : a < b ↔ a.toNat < b.toNat := Iff.rfl

theorem char_eq_iff_toNat (a b : Char) : a = b ↔ a.toNat = b.toNat := by
  constructor
  · intro h
    rw [h]
  · intro h
    exact Char.ext (UInt32.ext h)

namespace columns_73_76_evaluator

/-- The comparison object computes the strict lexicographic order of the four
characters, here stated on the code points. -/
theorem lexical_less_than_iff (a b : columns_73_76_t) :
    columns_73_76_t_lexical_less_than a b = true ↔
      a.e0.toNat < b.e0.toNat ∨ (a.e0.toNat = b.e0.toNat ∧
        (a.e1.toNat < b.e1.toNat ∨ (a.e1.toNat = b.e1.toNat ∧
          (a.e2.toNat < b.e2.toNat ∨ (a.e2.toNat = b.e2.toNat ∧
            a.e3.toNat < b.e3.toNat))))) := by
  unfold columns_73_76_t_lexical_less_than
  simp only [gt_iff_lt, char_lt_iff_toNat]
  split_ifs <;> simp only [Bool.false_eq_true, false_iff, true_iff] <;> omega

theorem columns_73_76_t_eq_iff (a b : columns_73_76_t) :
    a = b ↔ a.e0.toNat = b.e0.toNat ∧ a.e1.toNat = b.e1.toNat ∧
      a.e2.toNat = b.e2.toNat ∧ a.e3.toNat = b.e3.toNat := by
  simp only [← char_eq_iff_toNat]
  constructor
  · intro h
    rw [h]
    exact ⟨rfl, rfl, rfl, rfl⟩
  · intro h
    cases a
    cases b
    simp only [columns_73_76_t.mk.injEq]
    exact h

/-- C18: `columns_73_76_t_lexical_less_than` is the strict lexicographic order on
4-character tuples: `a < b` exactly when at the first position where they differ the
character of `a` is the smaller one; it is irreflexive and transitive, for every `a`
and `b` exactly one of `a < b`, `b < a`, `a = b` holds, and two keys are equivalent
(neither is less than the other) exactly when all four characters are equal. -/
theorem lexical_less_than_strict_total_order :
    (∀ a b : columns_73_76_t, columns_73_76_t_lexical_less_than a b = true ↔
      a.e0 < b.e0 ∨ (a.e0 = b.e0 ∧ (a.e1 < b.e1 ∨ (a.e1 = b.e1 ∧
        (a.e2 < b.e2 ∨ (a.e2 = b.e2 ∧ a.e3 < b.e3)))))) ∧
    (∀ a : columns_73_76_t, columns_73_76_t_lexical_less_than a a = false) ∧
    (∀ a b c : columns_73_76_t, columns_73_76_t_lexical_less_than a b = true →
      columns_73_76_t_lexical_less_than b c = true →
      columns_73_76_t_lexical_less_than a c = true) ∧
    (∀ a b : columns_73_76_t,
      (columns_73_76_t_lexical_less_than a b = true ∨
        columns_73_76_t_lexical_less_than b a = true ∨ a = b) ∧
      ¬ (columns_73_76_t_lexical_less_than a b = true ∧
        columns_73_76_t_lexical_less_than b a = true) ∧
      ¬ (columns_73_76_t_lexical_less_than a b = true ∧ a = b) ∧
      ¬ (columns_73_76_t_lexical_less_than b a = true ∧ a = b)) ∧
    (∀ a b : columns_73_76_t,
      (columns_73_76_t_lexical_less_than a b = false ∧
        columns_73_76_t_lexical_less_than b a = false) ↔
      (a.e0 = b.e0 ∧ a.e1 = b.e1 ∧ a.e2 = b.e2 ∧ a.e3 = b.e3)) := by
  refine ⟨?_, ?_, ?_, ?_, ?_⟩
  · intro a b
    rw [lexical_less_than_iff]
    simp only [char_lt_iff_toNat, char_eq_iff_toNat]
  · intro a
    rw [← Bool.not_eq_true, lexical_less_than_iff]
    omega
  · intro a b c
    rw [lexical_less_than_iff, lexical_less_than_iff, lexical_less_than_iff]
    omega
  · intro a b
    rw [lexical_less_than_iff, lexical_less_than_iff, columns_73_76_t_eq_iff]
    omega
  · intro a b
    rw [← Bool.not_eq_true, ← Bool.not_eq_true, lexical_less_than_iff,
      lexical_less_than_iff]
    simp only [char_eq_iff_toNat]
    omega

end columns_73_76_evaluator

namespace input

theorem construct_hierarchy_chains_cons (ter_indices : List Nat) (first : Nat)
    (a : input_atom_labels) (rest : List input_atom_labels) :
    construct_hierarchy.chains ter_indices first (a :: rest) =
      match construct_hierarchy.chains ter_indices (first + 1) rest with
      | [] => [(a.chain, [a])]
      | (id, members) :: cs =>
        if a.chain = id ∧ (first + 1) ∉ ter_indices then (id, a :: members) :: cs
        else (a.chain, [a]) :: (id, members) :: cs := by
  rw [construct_hierarchy.chains]

/-- Without TER markers the chains are the maximal runs of equal chain id: their
atoms, in order, are the atoms of the model; every chain is non-empty and all its
atoms carry its id; neighbouring chains have different ids. -/
theorem construct_hierarchy_chains_runs (first : Nat) (atoms : List input_atom_labels) :
    ((construct_hierarchy.chains [] first atoms).map Prod.snd).flatten = atoms ∧
    (∀ c ∈ construct_hierarchy.chains [] first atoms,
      c.2 ≠ [] ∧ ∀ a ∈ c.2, a.chain = c.1) ∧
    List.Chain' (fun c d => c.1 ≠ d.1) (construct_hierarchy.chains [] first atoms) ∧
    (∀ a rest, atoms = a :: rest →
      ∃ c cs, construct_hierarchy.chains [] first atoms = c :: cs ∧ c.1 = a.chain) := by
  induction atoms generalizing first with
  | nil =>
    refine ⟨rfl, ?_, List.chain'_nil, ?_⟩
    · intro c hc
      exact absurd hc (List.not_mem_nil c)
    · intro a rest h
      exact absurd h (by simp)
  | cons a rest ih =>
    obtain ⟨i1, i2, i3, i4⟩ := ih (first + 1)
    rw [construct_hierarchy_chains_cons]
    cases hcs : construct_hierarchy.chains [] (first + 1) rest with
    | nil =>
      rw [hcs] at i1
      have hrest : rest = [] := by simpa using i1.symm
      subst hrest
      refine ⟨rfl, ?_, List.chain'_singleton _, ?_⟩
      · intro c hc
        rw [List.mem_singleton] at hc
        subst hc
        refine ⟨List.cons_ne_nil _ _, ?_⟩
        intro x hx
        rw [List.mem_singleton] at hx
        rw [hx]
      · intro x xs hx
        exact ⟨_, _, rfl, by rw [(List.cons.inj hx).1]⟩
    | cons c cs =>
      rw [hcs] at i1 i2 i3
      obtain ⟨id, members⟩ := c
      simp only
      by_cases hid : a.chain = id ∧ (first + 1) ∉ ([] : List Nat)
      · rw [if_pos hid]
        have hc2 := i2 (id, members) (List.mem_cons_self _ _)
        refine ⟨?_, ?_, ?_, ?_⟩
        · simp only [List.map_cons, List.flatten_cons, List.cons_append] at i1 ⊢
          rw [i1]
        · intro c hc
          rcases List.mem_cons.mp hc with rfl | hc
          · refine ⟨List.cons_ne_nil _ _, ?_⟩
            intro x hx
            rcases List.mem_cons.mp hx with rfl | hx
            · exact hid.1
            · exact hc2.2 x hx
          · exact i2 c (List.mem_cons_of_mem _ hc)
        · cases cs with
          | nil => exact List.chain'_singleton _
          | cons d ds =>
            rw [List.chain'_cons] at i3 ⊢
            exact i3
        · intro x xs hx
          exact ⟨_, _, rfl, by rw [← hid.1, (List.cons.inj hx).1]⟩
      · rw [if_neg hid]
        have hne : a.chain ≠ id := by
          intro h
          exact hid ⟨h, List.not_mem_nil _⟩
        refine ⟨?_, ?_, ?_, ?_⟩
        · simp only [List.map_cons, List.flatten_cons, List.cons_append, List.nil_append] at i1 ⊢
          rw [i1]
        · intro c hc
          rcases List.mem_cons.mp hc with rfl | hc
          · refine ⟨List.cons_ne_nil _ _, ?_⟩
            intro x hx
            rw [List.mem_singleton] at hx
            rw [hx]
          · exact i2 c hc
        · rw [List.chain'_cons]
          exact ⟨hne, i3⟩
        · intro x xs hx
          exact ⟨_, _, rfl, by rw [(List.cons.inj hx).1]⟩

end input

namespace input

/-- C14: within one model and without TER markers, four atoms whose chain ids are
A, A, B, A in file order (A and B different) give exactly three chains, with ids
A, B, A in that order, the first holding the two leading atoms and the last the
fourth atom. In general the chains are the maximal runs of equal chain id: their
atoms in order are the atoms of the model, every chain is non-empty and uniform in
its id, and neighbouring chains have different ids, so an id that reappears after a
different id starts a new chain. -/
theorem chains_split_on_reappearing_id (first : Nat) (a1 a2 b a3 : input_atom_labels)
    (hA2 : a2.chain = a1.chain) (hB : b.chain ≠ a1.chain) (hA3 : a3.chain = a1.chain) :
    construct_hierarchy.chains [] first [a1, a2, b, a3] =
      [(a1.chain, [a1, a2]), (b.chain, [b]), (a1.chain, [a3])] ∧
    (construct_hierarchy.chains [] first [a1, a2, b, a3]).length = 3 ∧
    (∀ (start : Nat) (atoms : List input_atom_labels),
      ((construct_hierarchy.chains [] start atoms).map Prod.snd).flatten = atoms ∧
      (∀ c ∈ construct_hierarchy.chains [] start atoms,
        c.2 ≠ [] ∧ ∀ a ∈ c.2, a.chain = c.1) ∧
      List.Chain' (fun c d => c.1 ≠ d.1) (construct_hierarchy.chains [] start atoms)) := by
  have h4 : construct_hierarchy.chains [] (first + 1 + 1 + 1) [a3] = [(a1.chain, [a3])] := by
    rw [construct_hierarchy_chains_cons, construct_hierarchy.chains, hA3]
  have h3 : construct_hierarchy.chains [] (first + 1 + 1) [b, a3] =
      [(b.chain, [b]), (a1.chain, [a3])] := by
    rw [construct_hierarchy_chains_cons, h4]
    simp only
    rw [if_neg (fun h => hB h.1)]
  have h2 : construct_hierarchy.chains [] (first + 1) [a2, b, a3] =
      [(a2.chain, [a2]), (b.chain, [b]), (a1.chain, [a3])] := by
    rw [construct_hierarchy_chains_cons, h3]
    simp only
    rw [if_neg (fun h => hB (h.1.symm.trans hA2))]
  have h1 : construct_hierarchy.chains [] first [a1, a2, b, a3] =
      [(a1.chain, [a1, a2]), (b.chain, [b]), (a1.chain, [a3])] := by
    rw [construct_hierarchy_chains_cons, h2]
    simp only
    rw [if_pos ⟨hA2.symm, List.not_mem_nil _⟩, hA2]
  refine ⟨h1, by rw [h1]; rfl, ?_⟩
  intro start atoms
  obtain ⟨r1, r2, r3, _⟩ := construct_hierarchy_chains_runs start atoms
  exact ⟨r1, r2, r3⟩

/-- Witness for C14: four atoms with raw chain fields blank-`A`, blank-`A`,
blank-`B`, blank-`A`. -/
theorem chains_split_on_reappearing_id_witness :
    (sample_atom " N  ".toList " A".toList).chain = ['A'] ∧
    (sample_atom " CA ".toList " A".toList).chain =
      (sample_atom " N  ".toList " A".toList).chain ∧
    (sample_atom " C  ".toList " B".toList).chain ≠
      (sample_atom " N  ".toList " A".toList).chain ∧
    (sample_atom " O  ".toList " A".toList).chain =
      (sample_atom " N  ".toList " A".toList).chain ∧
    construct_hierarchy.chains [] 0
        [sample_atom " N  ".toList " A".toList, sample_atom " CA ".toList " A".toList,
          sample_atom " C  ".toList " B".toList, sample_atom " O  ".toList " A".toList] =
      [((sample_atom " N  ".toList " A".toList).chain,
          [sample_atom " N  ".toList " A".toList, sample_atom " CA ".toList " A".toList]),
        ((sample_atom " C  ".toList " B".toList).chain,
          [sample_atom " C  ".toList " B".toList]),
        ((sample_atom " N  ".toList " A".toList).chain,
          [sample_atom " O  ".toList " A".toList])] :=
  ⟨by decide, by decide, by decide, by decide,
    (chains_split_on_reappearing_id 0 (sample_atom " N  ".toList " A".toList)
      (sample_atom " CA ".toList " A".toList) (sample_atom " C  ".toList " B".toList)
      (sample_atom " O  ".toList " A".toList) (by decide) (by decide) (by decide)).1⟩

end input

theorem columns_73_76_eq (l : List Char) :
    columns l 73 76 = [l.getD 72 ' ', l.getD 73 ' ', l.getD 74 ' ', l.getD 75 ' '] := rfl

namespace columns_73_76_evaluator

theorem is_record_type_loop_iff (name l : List Char) (i : Nat) :
    is_record_type.loop name l i = true ↔
      ∀ k, i ≤ k → k < 6 → l.getD k nul = name.getD k nul := by
  induction i using is_record_type.loop.induct name l with
  | case1 i hi hne =>
    rw [is_record_type.loop, if_pos hi, if_pos hne]
    constructor
    · intro h
      exact absurd h (by decide)
    · intro h
      exact absurd (h i (Nat.le_refl i) hi) hne
  | case2 i hi heq ih =>
    rw [is_record_type.loop, if_pos hi, if_neg heq, ih]
    constructor
    · intro h k hk hk6
      by_cases hki : k = i
      · subst hki
        exact not_not.mp heq
      · exact h k (by omega) hk6
    · intro h k hk hk6
      exact h k (by omega) hk6
  | case3 i hi =>
    rw [is_record_type.loop, if_neg hi]
    constructor
    · intro _ k hk hk6
      omega
    · intro _
      rfl

theorem is_record_type_iff (name l : List Char) :
    is_record_type name l = true ↔
      ∀ k, k < 6 → l.getD k nul = name.getD k nul := by
  unfold is_record_type
  rw [is_record_type_loop_iff]
  constructor
  · intro h k hk
    exact h k (Nat.zero_le k) hk
  · intro h k _ hk
    exact h k hk

theorem equivalent_iff_eq (k v : columns_73_76_t) :
    (!columns_73_76_t_lexical_less_than k v && !columns_73_76_t_lexical_less_than v k) =
      true ↔ k = v := by
  rw [Bool.and_eq_true, Bool.not_eq_true', Bool.not_eq_true', ← Bool.not_eq_true,
    ← Bool.not_eq_true, lexical_less_than_iff, lexical_less_than_iff, columns_73_76_t_eq_iff]
  omega

theorem frequency_eq_count (keys : List columns_73_76_t) (v : columns_73_76_t) :
    frequency keys v = keys.count v := by
  unfold frequency
  rw [List.count_eq_countP]
  apply List.countP_congr
  intro x _
  rw [equivalent_iff_eq]
  simp

theorem trailing_window_eq_iff (l1 l2 : List Char) :
    trailing_window l1 = trailing_window l2 ↔ columns l1 73 76 = columns l2 73 76 := by
  rw [columns_73_76_eq, columns_73_76_eq]
  unfold trailing_window
  simp only [columns_73_76_t.mk.injEq, List.cons.injEq, and_true]

theorem is_record_type_of_take (name l : List Char) (h : l.take 6 = name) :
    is_record_type name l = true := by
  rw [is_record_type_iff]
  intro k hk
  rw [← h, getD_take_of_lt l 6 k nul hk]

theorem is_atom_of_record (l : List Char) (hlen : 76 ≤ l.length)
    (hrec : l.take 6 = "ATOM  ".toList) : is_atom_or_hetatm l = true := by
  unfold is_atom_or_hetatm
  rw [is_record_type_of_take _ l hrec, Bool.true_or, Bool.and_true, decide_eq_true_eq]
  omega

theorem is_frequent_of_atom_only (keys : List columns_73_76_t) (v : columns_73_76_t) :
    is_frequent keys [] 1000 100 v = decide (1000 ≤ keys.count v) := by
  unfold is_frequent
  rw [frequency_eq_count, frequency_eq_count]
  simp

/-- On input made of atom records only, count and verdict with the default
thresholds are decided by the windows of all the lines. -/
theorem ctor_of_atom_lines (lines : List (List Char))
    (hatom : ∀ l ∈ lines, is_atom_or_hetatm l = true) :
    (ctor lines 1000 100).number_of_atom_and_hetatm_lines = lines.length ∧
    (ctor lines 1000 100).is_old_style =
      (!(lines.map trailing_window).isEmpty &&
        (lines.map trailing_window).any
          (fun v => decide (1000 ≤ (lines.map trailing_window).count v)) &&
        decide ((lines.map trailing_window).length <
          2 * (lines.map trailing_window).countP
            (fun v => decide (1000 ≤ (lines.map trailing_window).count v)))) := by
  have h1 : lines.filter is_atom_or_hetatm = lines := List.filter_eq_self.mpr hatom
  have h2 : lines.filter (fun l => !is_atom_or_hetatm l) = [] := by
    rw [List.filter_eq_nil_iff]
    intro l hl
    rw [hatom l hl]
    decide
  have hf : is_frequent (lines.map trailing_window) [] 1000 100 =
      fun v => decide (1000 ≤ (lines.map trailing_window).count v) :=
    funext (is_frequent_of_atom_only (lines.map trailing_window))
  unfold ctor
  simp only [h1, h2, List.map_nil, hf, List.length_map, and_self]

theorem nodup_windows (lines : List (List Char))
    (h : (lines.map (fun l => columns l 73 76)).Nodup) :
    (lines.map trailing_window).Nodup := by
  have hmap : lines.map (fun l => columns l 73 76) =
      (lines.map trailing_window).map (fun t => [t.e0, t.e1, t.e2, t.e3]) := by
    rw [List.map_map]
    rfl
  rw [hmap] at h
  exact List.Nodup.of_map _ h

/-- C15: layout verdict with the default thresholds 1000 and 100. For 1500 lines of
76 or more bytes that begin with the `ATOM` keyword and all carry the same value in
columns 73-76 the verdict is old style; for 1500 such lines carrying pairwise
distinct values in columns 73-76 it is not; in both cases
`number_of_atom_and_hetatm_lines` is 1500. -/
theorem layout_verdict_of_1500_atom_lines (same_lines distinct_lines : List (List Char))
    (hs_len : same_lines.length = 1500)
    (hs_atom : ∀ l ∈ same_lines, 76 ≤ l.length ∧ l.take 6 = "ATOM  ".toList)
    (hs_same : ∀ l1 ∈ same_lines, ∀ l2 ∈ same_lines,
      columns l1 73 76 = columns l2 73 76)
    (hd_len : distinct_lines.length = 1500)
    (hd_atom : ∀ l ∈ distinct_lines, 76 ≤ l.length ∧ l.take 6 = "ATOM  ".toList)
    (hd_distinct : (distinct_lines.map (fun l => columns l 73 76)).Nodup) :
    (ctor same_lines 1000 100).is_old_style = true ∧
    (ctor same_lines 1000 100).number_of_atom_and_hetatm_lines = 1500 ∧
    (ctor distinct_lines 1000 100).is_old_style = false ∧
    (ctor distinct_lines 1000 100).number_of_atom_and_hetatm_lines = 1500 := by
  obtain ⟨s1, s2⟩ := ctor_of_atom_lines same_lines
    (fun l hl => is_atom_of_record l (hs_atom l hl).1 (hs_atom l hl).2)
  obtain ⟨d1, d2⟩ := ctor_of_atom_lines distinct_lines
    (fun l hl => is_atom_of_record l (hd_atom l hl).1 (hd_atom l hl).2)
  refine ⟨?_, by rw [s1, hs_len], ?_, by rw [d1, hd_len]⟩
  · cases hsl : same_lines with
    | nil =>
      rw [hsl] at hs_len
      exact absurd hs_len (by decide)
    | cons l0 rest =>
      have hl0 : l0 ∈ same_lines := by
        rw [hsl]
        exact List.mem_cons_self _ _
      have hkeys : same_lines.map trailing_window =
          List.replicate 1500 (trailing_window l0) := by
        rw [List.eq_replicate_iff]
        refine ⟨by rw [List.length_map, hs_len], ?_⟩
        intro b hb
        obtain ⟨l, hl, rfl⟩ := List.mem_map.mp hb
        exact (trailing_window_eq_iff l l0).mpr (hs_same l hl l0 hl0)
      have hall : ∀ v ∈ List.replicate 1500 (trailing_window l0),
          decide (1000 ≤ (List.replicate 1500 (trailing_window l0)).count v) = true := by
        intro v hv
        rw [List.eq_of_mem_replicate hv, List.count_replicate_self]
        decide
      have hany : (List.replicate 1500 (trailing_window l0)).any
          (fun v => decide (1000 ≤ (List.replicate 1500 (trailing_window l0)).count v)) =
            true := by
        rw [List.any_eq_true]
        have hmem : trailing_window l0 ∈ List.replicate 1500 (trailing_window l0) := by
          rw [List.mem_replicate]
          exact ⟨by decide, rfl⟩
        exact ⟨trailing_window l0, hmem, hall _ hmem⟩
      have hcount : (List.replicate 1500 (trailing_window l0)).countP
          (fun v => decide (1000 ≤ (List.replicate 1500 (trailing_window l0)).count v)) =
            1500 := by
        rw [List.countP_eq_length.mpr hall, List.length_replicate]
      rw [← hsl, s2, hkeys, hany, hcount, List.length_replicate]
      rfl
  · have hnd := nodup_windows distinct_lines hd_distinct
    have hany : (distinct_lines.map trailing_window).any
        (fun v => decide (1000 ≤ (distinct_lines.map trailing_window).count v)) =
          false := by
      rw [List.any_eq_false]
      intro x _
      rw [decide_eq_true_eq]
      have := List.nodup_iff_count_le_one.mp hnd x
      omega
    rw [d2, hany, Bool.and_false, Bool.false_and]

end columns_73_76_evaluator

theorem digit_injective : ∀ a, a < 10 → ∀ b, b < 10 → digit a = digit b → a = b := by
  decide

theorem columns_numbered_line (k : Nat) :
    columns (numbered_line k) 73 76 =
      [digit (k / 1000 % 10), digit (k / 100 % 10), digit (k / 10 % 10), digit (k % 10)] :=
  rfl

theorem numbered_line_injective (x y : Nat) (hx : x < 1500) (hy : y < 1500)
    (h : columns (numbered_line x) 73 76 = columns (numbered_line y) 73 76) : x = y := by
  rw [columns_numbered_line, columns_numbered_line] at h
  simp only [List.cons.injEq, and_true] at h
  obtain ⟨h3, h2, h1, h0⟩ := h
  have e3 := digit_injective _ (Nat.mod_lt _ (by decide)) _ (Nat.mod_lt _ (by decide)) h3
  have e2 := digit_injective _ (Nat.mod_lt _ (by decide)) _ (Nat.mod_lt _ (by decide)) h2
  have e1 := digit_injective _ (Nat.mod_lt _ (by decide)) _ (Nat.mod_lt _ (by decide)) h1
  have e0 := digit_injective _ (Nat.mod_lt _ (by decide)) _ (Nat.mod_lt _ (by decide)) h0
  omega

theorem numbered_line_is_atom_record (k : Nat) :
    76 ≤ (numbered_line k).length ∧ (numbered_line k).take 6 = "ATOM  ".toList :=
  ⟨Nat.le_refl 76, rfl⟩

theorem sample_line_is_atom_record :
    76 ≤ sample_line.data.length ∧ sample_line.data.take 6 = "ATOM  ".toList := by
  decide

namespace columns_73_76_evaluator

/-- Witness for C15: 1500 copies of the sample `ATOM` record, and 1500 `ATOM` records
numbered 0000 to 1499 in columns 73-76. -/
theorem layout_verdict_of_1500_atom_lines_witness :
    (List.replicate 1500 sample_line.data).length = 1500 ∧
    ((List.range 1500).map numbered_line).length = 1500 ∧
    (((List.range 1500).map numbered_line).map (fun l => columns l 73 76)).Nodup ∧
    (ctor (List.replicate 1500 sample_line.data) 1000 100).is_old_style = true ∧
    (ctor (List.replicate 1500 sample_line.data) 1000
      100).number_of_atom_and_hetatm_lines = 1500 ∧
    (ctor ((List.range 1500).map numbered_line) 1000 100).is_old_style = false ∧
    (ctor ((List.range 1500).map numbered_line) 1000
      100).number_of_atom_and_hetatm_lines = 1500 :=
  have hs_len : (List.replicate 1500 sample_line.data).length = 1500 :=
    List.length_replicate _ _
  have hd_len : ((List.range 1500).map numbered_line).length = 1500 := by
    rw [List.length_map, List.length_range]
  have hd_distinct :
      (((List.range 1500).map numbered_line).map (fun l => columns l 73 76)).Nodup := by
    rw [List.map_map]
    apply List.Nodup.map_on _ (List.nodup_range 1500)
    intro x hx y hy hxy
    exact numbered_line_injective x y (List.mem_range.mp hx) (List.mem_range.mp hy) hxy
  ⟨hs_len, hd_len, hd_distinct,
    layout_verdict_of_1500_atom_lines
      (List.replicate 1500 sample_line.data) ((List.range 1500).map numbered_line)
      hs_len
      (fun l hl => by
        rw [List.eq_of_mem_replicate hl]
        exact sample_line_is_atom_record)
      (fun l1 h1 l2 h2 => by
        rw [List.eq_of_mem_replicate h1, List.eq_of_mem_replicate h2])
      hd_len
      (fun l hl => by
        obtain ⟨k, _, rfl⟩ := List.mem_map.mp hl
        exact numbered_line_is_atom_record k)
      hd_distinct⟩

end columns_73_76_evaluator

end iotbx.pdb
